import Mathlib

/-!
Verification of the securefs cryptographic storage stack (streams.cpp,
commands.cpp) against its natural-language specification.

Bytes are modelled as `Nat` (the value of a C `byte`); a byte store
(`StreamBase` backed by a POSIX file) is a `List Nat` holding the full
content.  Reads past the end return fewer bytes; writes past the end
zero-fill the gap (POSIX holes read back as zeros); `resize` truncates or
zero-extends.  Per-block ciphers, AES-GCM, HMAC-SHA256, PBKDF2 and the
random generator are abstract function parameters: the theorems are about
the control flow and byte bookkeeping of the source, which treats those
primitives as black boxes.
-/

namespace Securefs

/-- The error kinds the modelled code can raise (exceptions.h is not part of
the sources; the constructors mirror the exception classes thrown in
streams.cpp / commands.cpp).  `invalidFormat` is the
`InvalidHMACStreamException` with the "not of enough length" message and
`invalidHMAC` the one with the "HMAC mismatch" message (the class is a
subclass of `InvalidFormatException`).  `randomExhausted` models
non-termination of the IV resampling loop (the C++ would spin forever if
the generator kept returning all zeros); `runtimeError` models a plain
`std::runtime_error`; `missingField` models `nlohmann::json::at` on an
absent key. -/
inductive Err where
  | invalidFormat
  | invalidHMAC
  | corruptedMetaData
  | messageVerification (offset : Nat)
  | streamTooLong (maxSize size : Nat)
  | invalidArgument
  | missingField
  | runtimeError
  | randomExhausted
  deriving DecidableEq, Repr

/-- Byte `i` of a store, zero when out of range (reads past EOF see nothing;
holes read as zeros). -/
def byteAt (s : List Nat) (i : Nat) : Nat := (s[i]?).getD 0

/-- `StreamBase::read(buf, off, len)`: the bytes actually read — short at
EOF, empty past EOF (§4.1 of the spec). -/
def sbRead (s : List Nat) (off len : Nat) : List Nat := (s.drop off).take len

/-- `StreamBase::write(buf, off, len)`: writes `input` at `off`; a gap
between the old end and `off` reads back as zeros (POSIX sparse
semantics, §4.1). -/
def sbWrite (s : List Nat) (off : Nat) (input : List Nat) : List Nat :=
  s.take off ++ List.replicate (off - s.length) 0 ++ input ++ s.drop (off + input.length)

/-- `StreamBase::resize(n)`: truncate or zero-extend to exactly `n` bytes. -/
def sbResize (s : List Nat) (n : Nat) : List Nat :=
  s.take n ++ List.replicate (n - s.length) 0

@[simp] theorem length_sbRead (s : List Nat) (off len : Nat) :
    (sbRead s off len).length = min len (s.length - off) := by
  simp [sbRead]

@[simp] theorem length_sbWrite (s : List Nat) (off : Nat) (input : List Nat) :
    (sbWrite s off input).length = max s.length (off + input.length) := by
  simp [sbWrite]
  omega

@[simp] theorem length_sbResize (s : List Nat) (n : Nat) :
    (sbResize s n).length = n := by
  simp [sbResize]
  omega

theorem byteAt_eq_zero_of_le {s : List Nat} {i : Nat} (h : s.length ≤ i) :
    byteAt s i = 0 := by
  simp [byteAt, List.getElem?_eq_none (by omega : s.length ≤ i)]

theorem byteAt_append_left {s t : List Nat} {i : Nat} (h : i < s.length) :
    byteAt (s ++ t) i = byteAt s i := by
  simp [byteAt, List.getElem?_append_left h]

theorem byteAt_append_right {s t : List Nat} {i : Nat} (h : s.length ≤ i) :
    byteAt (s ++ t) i = byteAt t (i - s.length) := by
  simp [byteAt, List.getElem?_append_right h]

@[simp] theorem byteAt_replicate (n v i : Nat) :
    byteAt (List.replicate n v) i = if i < n then v else 0 := by
  simp [byteAt, List.getElem?_replicate]
  split <;> simp

theorem byteAt_take {s : List Nat} {n i : Nat} :
    byteAt (s.take n) i = if i < n then byteAt s i else 0 := by
  by_cases h : i < n
  · simp [byteAt, List.getElem?_take, h]
  · have : (s.take n).length ≤ i := by
      have := List.length_take_le n s
      omega
    simp [byteAt_eq_zero_of_le this, h]

theorem byteAt_drop {s : List Nat} {n i : Nat} :
    byteAt (s.drop n) i = byteAt s (n + i) := by
  simp [byteAt, List.getElem?_drop]

/-- Two byte lists are equal when they have equal length and agree at every
in-range position. -/
theorem list_ext_byteAt {s t : List Nat} (hl : s.length = t.length)
    (h : ∀ i, i < s.length → byteAt s i = byteAt t i) : s = t := by
  apply List.ext_getElem hl
  intro i h1 h2
  have := h i h1
  simpa [byteAt, List.getElem?_eq_getElem, h1, h2] using this

theorem byteAt_sbWrite (s : List Nat) (off : Nat) (input : List Nat) (i : Nat) :
    byteAt (sbWrite s off input) i =
      if off ≤ i ∧ i < off + input.length then byteAt input (i - off)
      else byteAt s i := by
  unfold sbWrite
  simp only [List.append_assoc]
  by_cases h1 : i < min off s.length
  · rw [byteAt_append_left (by simp; omega)]
    rw [byteAt_take]
    have hio : i < off := by omega
    rw [if_pos hio, if_neg (by omega)]
  · rw [byteAt_append_right (by simp; omega)]
    by_cases h2 : i < off
    · -- in the zero padding (i ≥ s.length here)
      have hsl : s.length ≤ i := by omega
      rw [byteAt_append_left (by simp; omega)]
      rw [byteAt_replicate, if_pos (by simp; omega), if_neg (by omega),
        byteAt_eq_zero_of_le hsl]
    · rw [byteAt_append_right (by simp; omega)]
      by_cases h3 : i < off + input.length
      · rw [byteAt_append_left (by simp; omega)]
        rw [if_pos (by omega)]
        congr 1
        simp
        omega
      · rw [byteAt_append_right (by simp; omega)]
        rw [byteAt_drop]
        rw [if_neg (by omega)]
        simp only [List.length_take, List.length_replicate]
        by_cases h4 : i < s.length
        · congr 1
          omega
        · rw [byteAt_eq_zero_of_le (by omega), byteAt_eq_zero_of_le (by omega)]

theorem byteAt_sbResize (s : List Nat) (n i : Nat) :
    byteAt (sbResize s n) i = if i < n then byteAt s i else 0 := by
  unfold sbResize
  by_cases h : i < min n s.length
  · rw [byteAt_append_left (by simp; omega), byteAt_take]
  · rw [byteAt_append_right (by simp; omega)]
    rw [byteAt_replicate]
    by_cases h2 : i < n
    · have hle : s.length ≤ i := by omega
      rw [if_pos (by simp; omega), if_pos h2, byteAt_eq_zero_of_le hle]
    · rw [if_neg (by simp; omega), if_neg h2]

theorem byteAt_sbRead (s : List Nat) (off len i : Nat) :
    byteAt (sbRead s off len) i = if i < len then byteAt s (off + i) else 0 := by
  unfold sbRead
  by_cases h : i < len
  · rw [byteAt_take]
    simp [h, byteAt_drop]
  · rw [byteAt_take]
    simp [h]

/-! ## The abstract `CryptStream` (streams.cpp lines 153-303)

`CryptStream` holds an underlying data `StreamBase` and a block size, and
delegates per-block `encrypt`/`decrypt` to a subclass.  A `Cipher` bundles
the block size, the two per-block transforms (pure functions of the block
number and the bytes: the C++ interface writes exactly `length` output
bytes for `length` input bytes, so the cipher is modelled as a
length-preserving function, imported as a hypothesis where needed), and
`is_sparse()` of the underlying store (declared in streams.h, which is not
among the sources; the spec describes it in section 4.1). -/

structure Cipher where
  blockSize : Nat
  enc : Nat → List Nat → List Nat
  dec : Nat → List Nat → List Nat
  sparse : Bool

/-- `CryptStream::read_block(block_number, output)` (lines 153-160): read up
to one block of ciphertext; nothing read means return 0, else decrypt in
place and return the count actually read. -/
def Cipher.readBlock (C : Cipher) (cs : List Nat) (k : Nat) : List Nat :=
  let raw := sbRead cs (k * C.blockSize) C.blockSize
  if raw.length = 0 then [] else C.dec k raw

/-- `CryptStream::read_block(block_number, output, begin, end)` (lines
162-180): the partial-block read.  The scratch buffer is only ever copied
from below `rc`, so its uninitialised tail is unobservable. -/
def Cipher.readBlockRange (C : Cipher) (cs : List Nat) (k a b : Nat) : List Nat :=
  if a = 0 ∧ b = C.blockSize then C.readBlock cs k
  else if b ≤ a then []
  else
    let blk := C.readBlock cs k
    if blk.length ≤ a then []
    else (blk.drop a).take (min b blk.length - a)

/-- `CryptStream::write_block(block_number, input, length)` (lines 182-189):
encrypt `length` bytes and write them at the block's ciphertext offset. -/
def Cipher.writeBlock (C : Cipher) (cs : List Nat) (k : Nat) (input : List Nat) :
    List Nat :=
  sbWrite cs (k * C.blockSize) (C.enc k input)

/-- `CryptStream::read_then_write_block(block_number, input, begin, end)`
(lines 191-207): full-block writes go straight through; otherwise the block
is read into a scratch buffer (modelled zero-initialised: every byte the
function goes on to write comes from the decrypted `rc` bytes or from
`input`, so the model is observationally exact), `[begin, end)` is
overwritten from `input`, and `max(rc, end)` bytes are re-encrypted. -/
def Cipher.readThenWriteBlock (C : Cipher) (cs : List Nat) (k a b : Nat)
    (input : List Nat) : List Nat :=
  if a = 0 ∧ b = C.blockSize then C.writeBlock cs k (input.take C.blockSize)
  else if b ≤ a then cs
  else
    let blk := C.readBlock cs k
    let rc := blk.length
    let buf := blk ++ List.replicate (C.blockSize - rc) 0
    let patched := buf.take a ++ input.take (b - a) ++ buf.drop b
    C.writeBlock cs k (patched.take (max rc b))

/-- The loop body of `CryptStream::read` (lines 209-229), with explicit fuel:
each iteration consumes at least one byte of `len` when the block size is
positive, so `len` units of fuel are exactly enough. -/
def Cipher.readGo (C : Cipher) (fuel : Nat) (cs : List Nat) (off len : Nat) :
    List Nat :=
  match fuel with
  | 0 => []
  | fuel + 1 =>
    if len = 0 then []
    else
      let k := off / C.blockSize
      let start := k * C.blockSize
      let a := off - start
      let b := min C.blockSize (off + len - start)
      let chunk := C.readBlockRange cs k a b
      if chunk.length < b - a then chunk
      else chunk ++ C.readGo fuel cs (off + chunk.length) (len - chunk.length)

/-- `CryptStream::read(output, offset, length)` (lines 209-229). -/
def Cipher.read (C : Cipher) (cs : List Nat) (off len : Nat) : List Nat :=
  C.readGo len cs off len

/-- The loop body of `CryptStream::unchecked_write` (lines 240-254), with
fuel exactly as for `readGo`. -/
def Cipher.writeGo (C : Cipher) (fuel : Nat) (cs : List Nat) (off : Nat)
    (input : List Nat) : List Nat :=
  match fuel with
  | 0 => cs
  | fuel + 1 =>
    if input.length = 0 then cs
    else
      let k := off / C.blockSize
      let start := k * C.blockSize
      let a := off - start
      let b := min C.blockSize (off + input.length - start)
      let cs2 := C.readThenWriteBlock cs k a b input
      C.writeGo fuel cs2 (off + (b - a)) (input.drop (b - a))

/-- `CryptStream::unchecked_write(input, offset, length)` (lines 240-254). -/
def Cipher.uncheckedWrite (C : Cipher) (cs : List Nat) (off : Nat)
    (input : List Nat) : List Nat :=
  C.writeGo input.length cs off input

/-- The loop body of `CryptStream::zero_fill` (lines 256-270). -/
def Cipher.zeroFillGo (C : Cipher) (fuel : Nat) (cs : List Nat) (off finish : Nat) :
    List Nat :=
  match fuel with
  | 0 => cs
  | fuel + 1 =>
    if off < finish then
      let k := off / C.blockSize
      let start := k * C.blockSize
      let a := off - start
      let b := min C.blockSize (finish - start)
      let cs2 := C.readThenWriteBlock cs k a b (List.replicate (b - a) 0)
      C.zeroFillGo fuel cs2 (off + (b - a)) finish
    else cs

/-- `CryptStream::zero_fill(offset, finish)` (lines 256-270). -/
def Cipher.zeroFill (C : Cipher) (cs : List Nat) (off finish : Nat) : List Nat :=
  C.zeroFillGo (finish - off) cs off finish

/-- Modelled from the spec: `CryptStream::size()` is declared in streams.h,
which is not among the sources.  Per-block encryption is length-preserving
(spec section 4.4: "Ciphertext length equals plaintext length"), so the
logical size is the underlying data stream's size. -/
def Cipher.size (_C : Cipher) (cs : List Nat) : Nat := cs.length

/-- `CryptStream::resize(new_size)` (lines 272-303): shrink re-encrypts the
residue of the final block; growth zero-fills, leaving whole intermediate
blocks as sparse holes when the underlying store is sparse and the old and
new last-block indices differ. -/
def Cipher.resize (C : Cipher) (cs : List Nat) (n : Nat) : List Nat :=
  let current := cs.length
  if n = current then cs
  else if n < current then
    let r := n % C.blockSize
    let k := n / C.blockSize
    let cs2 :=
      if 0 < r then
        let blk := C.readBlock cs k
        let buf := blk ++ List.replicate (C.blockSize - blk.length) 0
        C.writeBlock cs k (buf.take r)
      else cs
    sbResize cs2 n
  else
    let oldK := current / C.blockSize
    let newK := n / C.blockSize
    let cs2 :=
      if ¬ C.sparse ∨ oldK = newK then C.zeroFill cs current n
      else
        C.zeroFill (C.zeroFill cs current (oldK * C.blockSize + C.blockSize))
          (newK * C.blockSize) n
    sbResize cs2 n

/-- `CryptStream::write(input, offset, length)` (lines 231-238): extend
first (zero-filling the gap) when writing past the end. -/
def Cipher.write (C : Cipher) (cs : List Nat) (off : Nat) (input : List Nat) :
    List Nat :=
  let cs2 := if cs.length < off then C.resize cs off else cs
  C.uncheckedWrite cs2 off input

/-! ## The observable interface and the reference model

The reference (spec section 8, invariant 1 and scenario S2) is a plain
resizable byte array: reads return the last bytes written, gaps from
`resize`-extension and from writes past the end read as zeros.  Its
operations are exactly the `sbRead`/`sbWrite`/`sbResize` primitives. -/

/-- One operation on a stream handle. -/
inductive StreamOp where
  | write (off : Nat) (data : List Nat)
  | read (off len : Nat)
  | resize (n : Nat)
  | size
  deriving DecidableEq, Repr

/-- One observable result. -/
inductive StreamOut where
  | bytes (l : List Nat)
  | num (n : Nat)
  | done
  deriving DecidableEq, Repr

/-- One step of a `CryptStream` handle. -/
def Cipher.step (C : Cipher) (cs : List Nat) : StreamOp → StreamOut × List Nat
  | .write off data => (.done, C.write cs off data)
  | .read off len => (.bytes (C.read cs off len), cs)
  | .resize n => (.done, C.resize cs n)
  | .size => (.num (C.size cs), cs)

/-- Run a `CryptStream` handle over a list of operations, collecting the
observable results. -/
def Cipher.run (C : Cipher) (cs : List Nat) : List StreamOp → List StreamOut × List Nat
  | [] => ([], cs)
  | op :: ops =>
    let (out, cs2) := C.step cs op
    let (outs, cs3) := C.run cs2 ops
    (out :: outs, cs3)

/-- One step of the reference: a plain resizable byte array, following the
spec's words. -/
def refStep (ps : List Nat) : StreamOp → StreamOut × List Nat
  | .write off data => (.done, sbWrite ps off data)
  | .read off len => (.bytes (sbRead ps off len), ps)
  | .resize n => (.done, sbResize ps n)
  | .size => (.num ps.length, ps)

/-- Run the reference byte array over a list of operations. -/
def refRun (ps : List Nat) : List StreamOp → List StreamOut × List Nat
  | [] => ([], ps)
  | op :: ops =>
    let (out, ps2) := refStep ps op
    let (outs, ps3) := refRun ps2 ops
    (out :: outs, ps3)

/-! ## Basic facts about block reads -/

/-- Let-free restatement of `Cipher.readBlock`, for rewriting. -/
theorem readBlock_def (C : Cipher) (cs : List Nat) (k : Nat) :
    C.readBlock cs k =
      if (sbRead cs (k * C.blockSize) C.blockSize).length = 0 then []
      else C.dec k (sbRead cs (k * C.blockSize) C.blockSize) := rfl

/-- Let-free restatement of `Cipher.readBlockRange`, for rewriting. -/
theorem readBlockRange_def (C : Cipher) (cs : List Nat) (k a b : Nat) :
    C.readBlockRange cs k a b =
      if a = 0 ∧ b = C.blockSize then C.readBlock cs k
      else if b ≤ a then []
      else if (C.readBlock cs k).length ≤ a then []
      else ((C.readBlock cs k).drop a).take (min b (C.readBlock cs k).length - a) :=
  rfl

/-- Let-free restatement of `Cipher.readThenWriteBlock`, for rewriting. -/
theorem readThenWriteBlock_def (C : Cipher) (cs : List Nat) (k a b : Nat)
    (input : List Nat) :
    C.readThenWriteBlock cs k a b input =
      if a = 0 ∧ b = C.blockSize then C.writeBlock cs k (input.take C.blockSize)
      else if b ≤ a then cs
      else
        C.writeBlock cs k
          ((((C.readBlock cs k) ++
                List.replicate (C.blockSize - (C.readBlock cs k).length) 0).take a ++
              input.take (b - a) ++
              ((C.readBlock cs k) ++
                List.replicate (C.blockSize - (C.readBlock cs k).length) 0).drop b).take
            (max (C.readBlock cs k).length b)) :=
  rfl

/-- With a length-preserving cipher, a block read returns
`min B (size - k*B)` bytes. -/
theorem length_readBlock (C : Cipher) (cs : List Nat) (k : Nat)
    (hd : ∀ k l, (C.dec k l).length = l.length) :
    (C.readBlock cs k).length = min C.blockSize (cs.length - k * C.blockSize) := by
  rw [readBlock_def]
  split
  · rename_i h
    simp at h ⊢
    omega
  · rw [hd]
    simp

theorem length_readBlock_le (C : Cipher) (cs : List Nat) (k : Nat)
    (hd : ∀ k l, (C.dec k l).length = l.length) :
    (C.readBlock cs k).length ≤ C.blockSize := by
  rw [length_readBlock C cs k hd]
  omega

/-- The "dummy XOR" cipher of test_streams.cpp (`DummpyCryptStream`):
`out[i] = in[i] ^ (byte)block_number`, its own inverse, over a non-sparse
POSIX temp file. -/
def xorCipher (B : Nat) : Cipher where
  blockSize := B
  enc := fun k l => l.map (fun x => x ^^^ (k % 256))
  dec := fun k l => l.map (fun x => x ^^^ (k % 256))
  sparse := false

theorem xorCipher_dec_length (B k : Nat) (l : List Nat) :
    ((xorCipher B).dec k l).length = l.length := by
  simp [xorCipher]

/-- C9: the partial-block read `read_block(k, out, begin, end)` with
`begin ≤ blockSize` and `end ≤ blockSize` returns nothing when
`begin ≥ end`, returns nothing (and copies nothing) when the full-block
read yields `rc ≤ begin` bytes, and otherwise returns exactly
`min(end, rc) - begin` bytes taken from the `rc` decrypted bytes actually
present — never a negative count and never bytes past `rc`. -/
theorem readBlockRange_safe (C : Cipher) (cs : List Nat) (k a b : Nat)
    (hd : ∀ k l, (C.dec k l).length = l.length)
    (ha : a ≤ C.blockSize) (hb : b ≤ C.blockSize) :
    (b ≤ a → C.readBlockRange cs k a b = []) ∧
    (a < b → (C.readBlock cs k).length ≤ a → C.readBlockRange cs k a b = []) ∧
    (a < b → a < (C.readBlock cs k).length →
      C.readBlockRange cs k a b =
        ((C.readBlock cs k).drop a).take (min b (C.readBlock cs k).length - a) ∧
      (C.readBlockRange cs k a b).length = min b (C.readBlock cs k).length - a) := by
  have hrcB : (C.readBlock cs k).length ≤ C.blockSize := length_readBlock_le C cs k hd
  refine ⟨?_, ?_, ?_⟩
  · intro hba
    rw [readBlockRange_def]
    by_cases hfull : a = 0 ∧ b = C.blockSize
    · rw [if_pos hfull]
      -- a = 0 and b = blockSize with b ≤ a forces blockSize = 0,
      -- so the full-block read returns nothing
      have hB0 : C.blockSize = 0 := by omega
      rw [readBlock_def]
      rw [if_pos (by simp [hB0])]
    · rw [if_neg hfull, if_pos hba]
  · intro hab hrc
    rw [readBlockRange_def]
    by_cases hfull : a = 0 ∧ b = C.blockSize
    · rw [if_pos hfull]
      exact List.eq_nil_of_length_eq_zero (by omega)
    · rw [if_neg hfull, if_neg (by omega), if_pos hrc]
  · intro hab harc
    rw [readBlockRange_def]
    by_cases hfull : a = 0 ∧ b = C.blockSize
    · obtain ⟨ha0, hbB⟩ := hfull
      subst ha0
      rw [if_pos ⟨rfl, hbB⟩]
      constructor
      · rw [List.drop_zero, Nat.sub_zero, min_comm,
          min_eq_left (hbB ▸ hrcB), List.take_length]
      · omega
    · rw [if_neg hfull, if_neg (by omega), if_neg (by omega)]
      refine ⟨rfl, ?_⟩
      simp
      omega

/-- Witness for C9: a concrete partial read with the dummy XOR cipher,
block size 4, on a six-byte store: block 1 holds two bytes, and the
requested range `[1, 3)` clamps to one byte. -/
theorem readBlockRange_safe_witness :
    (xorCipher 4).readBlockRange [1, 2, 3, 4, 5, 6] 1 1 3 =
      (((xorCipher 4).readBlock [1, 2, 3, 4, 5, 6] 1).drop 1).take
        (min 3 ((xorCipher 4).readBlock [1, 2, 3, 4, 5, 6] 1).length - 1) ∧
    ((xorCipher 4).readBlockRange [1, 2, 3, 4, 5, 6] 1 1 3).length =
      min 3 ((xorCipher 4).readBlock [1, 2, 3, 4, 5, 6] 1).length - 1 :=
  (readBlockRange_safe (xorCipher 4) [1, 2, 3, 4, 5, 6] 1 1 3
    (fun k l => xorCipher_dec_length 4 k l) (by decide) (by decide)).2.2
    (by decide) (by decide)

/-! ## Refinement of `CryptStream` by a plain byte array (claim C1)

The simulation invariant ties the ciphertext store `cs` to the reference
plaintext store `ps`: same length, and decrypting any raw block of `cs`
yields the corresponding bytes of `ps`. -/

/-- The simulation invariant between the ciphertext store and the
reference plaintext store. -/
def Inv (C : Cipher) (cs ps : List Nat) : Prop :=
  cs.length = ps.length ∧
  ∀ k, C.dec k (sbRead cs (k * C.blockSize) C.blockSize) =
    sbRead ps (k * C.blockSize) C.blockSize

theorem Inv.len {C : Cipher} {cs ps : List Nat} (h : Inv C cs ps) :
    cs.length = ps.length := h.1

theorem Inv.block {C : Cipher} {cs ps : List Nat} (h : Inv C cs ps) (k : Nat) :
    C.dec k (sbRead cs (k * C.blockSize) C.blockSize) =
      sbRead ps (k * C.blockSize) C.blockSize := h.2 k

/-- Under the invariant, a full-block read returns the reference block. -/
theorem readBlock_eq_of_inv {C : Cipher} {cs ps : List Nat}
    (hd : ∀ k l, (C.dec k l).length = l.length) (h : Inv C cs ps) (k : Nat) :
    C.readBlock cs k = sbRead ps (k * C.blockSize) C.blockSize := by
  rw [readBlock_def]
  split
  · rename_i h0
    have hnil : sbRead cs (k * C.blockSize) C.blockSize = [] :=
      List.eq_nil_of_length_eq_zero h0
    have := h.block k
    rw [hnil] at this
    rw [← this]
    have : (C.dec k []).length = 0 := by rw [hd]; rfl
    exact (List.eq_nil_of_length_eq_zero this).symm
  · exact h.block k

/-- Writing nothing at an in-range offset is the identity. -/
theorem sbWrite_nil {s : List Nat} {off : Nat} (h : off ≤ s.length) :
    sbWrite s off [] = s := by
  unfold sbWrite
  have h0 : off - s.length = 0 := by omega
  simp [h0]

/-- Two consecutive writes merge into one. -/
theorem sbWrite_append (s : List Nat) (off : Nat) (w1 w2 : List Nat) :
    sbWrite (sbWrite s off w1) (off + w1.length) w2 = sbWrite s off (w1 ++ w2) := by
  apply list_ext_byteAt
  · simp
    omega
  · intro i _
    rw [byteAt_sbWrite, byteAt_sbWrite, byteAt_sbWrite]
    simp only [List.length_append]
    by_cases hA : off + w1.length ≤ i ∧ i < off + w1.length + w2.length
    · rw [if_pos hA,
        if_pos (show off ≤ i ∧ i < off + (w1.length + w2.length) by omega),
        byteAt_append_right (by omega)]
      congr 1
      omega
    · rw [if_neg hA]
      by_cases hB : off ≤ i ∧ i < off + w1.length
      · rw [if_pos hB,
          if_pos (show off ≤ i ∧ i < off + (w1.length + w2.length) by omega),
          byteAt_append_left (by omega)]
      · rw [if_neg hB,
          if_neg (show ¬(off ≤ i ∧ i < off + (w1.length + w2.length)) by omega)]

/-- A read splits at any interior point. -/
theorem sbRead_split (s : List Nat) (off m n : Nat) (h : m ≤ n) :
    sbRead s off n = sbRead s off m ++ sbRead s (off + m) (n - m) := by
  unfold sbRead
  rw [← List.drop_drop, show n = m + (n - m) by omega, List.take_add]
  congr 2
  omega

/-- Resizing to the current length is the identity. -/
theorem sbResize_self (s : List Nat) : sbResize s s.length = s := by
  unfold sbResize
  simp

/-- Growing by `resize` is the same as writing zeros at the end. -/
theorem sbResize_eq_write_zeros {s : List Nat} {n : Nat} (h : s.length ≤ n) :
    sbResize s n = sbWrite s s.length (List.replicate (n - s.length) 0) := by
  apply list_ext_byteAt
  · simp
    omega
  · intro i _
    rw [byteAt_sbResize, byteAt_sbWrite]
    simp only [List.length_replicate]
    by_cases h1 : s.length ≤ i ∧ i < s.length + (n - s.length)
    · rw [if_pos h1, if_pos (by omega), byteAt_replicate, if_pos (by omega),
        byteAt_eq_zero_of_le h1.1]
    · by_cases h2 : i < n
      · rw [if_pos h2, if_neg h1]
      · rw [if_neg h2, if_neg h1, byteAt_eq_zero_of_le (by omega)]

/-- Writing after growing to the write offset is just the write. -/
theorem sbWrite_sbResize {s : List Nat} {off : Nat} (input : List Nat)
    (h : s.length ≤ off) :
    sbWrite (sbResize s off) off input = sbWrite s off input := by
  apply list_ext_byteAt
  · simp
    omega
  · intro i _
    rw [byteAt_sbWrite, byteAt_sbWrite]
    by_cases h1 : off ≤ i ∧ i < off + input.length
    · rw [if_pos h1, if_pos h1]
    · rw [if_neg h1, if_neg h1, byteAt_sbResize]
      by_cases h2 : i < off
      · rw [if_pos h2]
      · rw [if_neg h2, byteAt_eq_zero_of_le (by omega)]

/-- A write confined to block `k`, at an offset not beyond the end of the
store, leaves every other raw block unchanged. -/
theorem sbRead_write_other_block {s : List Nat} {B off2 : Nat} (w : List Nat)
    {j k : Nat} (hjk : j ≠ k) (hlo : k * B ≤ off2)
    (hhi : off2 + w.length ≤ k * B + B) (hin : off2 ≤ s.length) :
    sbRead (sbWrite s off2 w) (j * B) B = sbRead s (j * B) B := by
  have hcase : j * B + B ≤ k * B ∨ k * B + B ≤ j * B := by
    rcases Nat.lt_or_ge j k with hj | hj
    · left
      have h1 : (j + 1) * B ≤ k * B := mul_le_mul_right' hj B
      have h2 : (j + 1) * B = j * B + B := by ring
      omega
    · right
      have hk : k + 1 ≤ j := by omega
      have h1 : (k + 1) * B ≤ j * B := mul_le_mul_right' hk B
      have h2 : (k + 1) * B = k * B + B := by ring
      omega
  apply list_ext_byteAt
  · simp
    rcases hcase with hc | hc <;> omega
  · intro i hi
    simp only [length_sbRead] at hi
    rw [byteAt_sbRead, byteAt_sbRead, byteAt_sbWrite]
    by_cases h1 : i < B
    · rw [if_pos h1, if_pos h1, if_neg (by rcases hcase with hc | hc <;> omega)]
    · rw [if_neg h1, if_neg h1]

/-- Let-free restatement of `Cipher.writeBlock`. -/
theorem writeBlock_def (C : Cipher) (cs : List Nat) (k : Nat) (input : List Nat) :
    C.writeBlock cs k input = sbWrite cs (k * C.blockSize) (C.enc k input) := rfl

/-- Reading back over a fresh in-range write returns the written bytes
followed by whatever the store held after them. -/
theorem sbRead_write_front {s : List Nat} (off : Nat) (w : List Nat) (B : Nat)
    (hin : off ≤ s.length) (hwB : w.length ≤ B) :
    sbRead (sbWrite s off w) off B = w ++ sbRead s (off + w.length) (B - w.length) := by
  apply list_ext_byteAt
  · simp
    omega
  · intro i hi
    simp only [length_sbRead, length_sbWrite] at hi
    rw [byteAt_sbRead]
    rw [if_pos (by omega)]
    rw [byteAt_sbWrite]
    by_cases h1 : i < w.length
    · rw [if_pos (by omega), byteAt_append_left h1]
      congr 1
      omega
    · rw [if_neg (by omega), byteAt_append_right (by omega), byteAt_sbRead]
      by_cases h2 : i - w.length < B - w.length
      · rw [if_pos h2]
        congr 1
        omega
      · rw [if_neg h2, byteAt_eq_zero_of_le (by omega)]

/-- Bytes of the scratch buffer: the decrypted block padded with zeros to a
full block. -/
theorem byteAt_buf (blk : List Nat) (B i : Nat) (h : blk.length ≤ B) :
    byteAt (blk ++ List.replicate (B - blk.length) 0) i =
      if i < blk.length then byteAt blk i else 0 := by
  by_cases h1 : i < blk.length
  · rw [byteAt_append_left h1, if_pos h1]
  · rw [byteAt_append_right (by omega), if_neg h1, byteAt_replicate]
    split <;> rfl

/-- Bytes of the patched scratch buffer: `input` over `[begin, end)`, the
old block elsewhere. -/
theorem byteAt_patched (blk ins : List Nat) (B a b i : Nat)
    (hrcB : blk.length ≤ B) (haB : a ≤ B) (hbB : b ≤ B) (hab : a ≤ b)
    (hins : ins.length = b - a) :
    byteAt ((blk ++ List.replicate (B - blk.length) 0).take a ++ ins ++
        (blk ++ List.replicate (B - blk.length) 0).drop b) i =
      if i < a then byteAt (blk ++ List.replicate (B - blk.length) 0) i
      else if i < b then byteAt ins (i - a)
      else byteAt (blk ++ List.replicate (B - blk.length) 0) i := by
  have hbufLen : (blk ++ List.replicate (B - blk.length) 0).length = B := by
    simp
    omega
  have htakeLen : ((blk ++ List.replicate (B - blk.length) 0).take a).length = a := by
    simp
    omega
  by_cases h1 : i < a
  · rw [byteAt_append_left (by simp [htakeLen, hins]; omega),
      byteAt_append_left (by rw [htakeLen]; omega), byteAt_take, if_pos h1,
      if_pos h1]
  · by_cases h2 : i < b
    · rw [byteAt_append_left (by simp [htakeLen, hins]; omega),
        byteAt_append_right (by rw [htakeLen]; omega), htakeLen,
        if_neg h1, if_pos h2]
    · rw [byteAt_append_right (by simp [htakeLen, hins]; omega), byteAt_drop,
        if_neg h1, if_neg h2]
      congr 1
      simp only [List.length_append, htakeLen, hins]
      omega

/-- When `begin < end`, `read_then_write_block` always reduces to the
patched re-encrypting write (the full-block fast path writes the same
bytes). -/
theorem rtw_eq (C : Cipher) (cs input : List Nat) (k a b : Nat)
    (hd : ∀ k l, (C.dec k l).length = l.length)
    (hab : a < b) (hbB : b ≤ C.blockSize) (hblen : b - a ≤ input.length) :
    C.readThenWriteBlock cs k a b input =
      C.writeBlock cs k
        ((((C.readBlock cs k) ++
              List.replicate (C.blockSize - (C.readBlock cs k).length) 0).take a ++
            input.take (b - a) ++
            ((C.readBlock cs k) ++
              List.replicate (C.blockSize - (C.readBlock cs k).length) 0).drop b).take
          (max (C.readBlock cs k).length b)) := by
  have hrcB : (C.readBlock cs k).length ≤ C.blockSize := length_readBlock_le C cs k hd
  rw [readThenWriteBlock_def]
  by_cases hfull : a = 0 ∧ b = C.blockSize
  · obtain ⟨ha0, hbB2⟩ := hfull
    subst ha0 hbB2
    rw [if_pos ⟨rfl, rfl⟩]
    congr 1
    have hdrop : ((C.readBlock cs k) ++
        List.replicate (C.blockSize - (C.readBlock cs k).length) 0).drop
          C.blockSize = [] := by
      apply List.eq_nil_of_length_eq_zero
      simp
      omega
    rw [List.take_zero, hdrop, List.nil_append, List.append_nil, Nat.sub_zero,
      List.take_take, max_eq_right hrcB, min_self]
  · rw [if_neg hfull, if_neg (by omega)]

/-- Effect of `read_then_write_block` on the simulation invariant, for an
offset inside or just at the end of the current stream: the reference
plaintext gets `input[0, end-begin)` written at `k·B + begin`. -/
theorem rtw_inv (C : Cipher) {cs ps : List Nat} (input : List Nat) (k a b : Nat)
    (he : ∀ k l, (C.enc k l).length = l.length)
    (hd : ∀ k l, (C.dec k l).length = l.length)
    (hinv : ∀ k l, C.dec k (C.enc k l) = l)
    (hInv : Inv C cs ps)
    (hoff : k * C.blockSize + a ≤ cs.length)
    (hab : a < b) (hbB : b ≤ C.blockSize) (hblen : b - a ≤ input.length) :
    Inv C (C.readThenWriteBlock cs k a b input)
      (sbWrite ps (k * C.blockSize + a) (input.take (b - a))) := by
  have hP := hInv.len
  have hblk := readBlock_eq_of_inv hd hInv k
  have hrc : (C.readBlock cs k).length =
      min C.blockSize (cs.length - k * C.blockSize) := length_readBlock C cs k hd
  have hrcB : (C.readBlock cs k).length ≤ C.blockSize := by omega
  have harc : a ≤ (C.readBlock cs k).length := by omega
  have hbufLen : ((C.readBlock cs k) ++
      List.replicate (C.blockSize - (C.readBlock cs k).length) 0).length =
        C.blockSize := by
    simp
    omega
  have hinsLen : (input.take (b - a)).length = b - a := by
    simp
    omega
  have hpatchLen : (((C.readBlock cs k) ++
      List.replicate (C.blockSize - (C.readBlock cs k).length) 0).take a ++
        input.take (b - a) ++
        ((C.readBlock cs k) ++
          List.replicate (C.blockSize - (C.readBlock cs k).length) 0).drop b).length =
      a + (b - a) + (C.blockSize - b) := by
    simp
    omega
  have hargLen : ((((C.readBlock cs k) ++
      List.replicate (C.blockSize - (C.readBlock cs k).length) 0).take a ++
        input.take (b - a) ++
        ((C.readBlock cs k) ++
          List.replicate (C.blockSize - (C.readBlock cs k).length) 0).drop b).take
        (max (C.readBlock cs k).length b)).length =
      max (C.readBlock cs k).length b := by
    rw [List.length_take, hpatchLen]
    omega
  rw [rtw_eq C cs input k a b hd hab hbB hblen, writeBlock_def]
  constructor
  · -- lengths agree
    rw [length_sbWrite, length_sbWrite, he, hargLen, hinsLen]
    omega
  · intro j
    by_cases hjk : j = k
    · subst hjk
      -- the rewritten block: the ciphertext side reads back exactly the
      -- encrypted patch, and decrypting recovers the patch
      have hLHS : sbRead
          (sbWrite cs (j * C.blockSize)
            (C.enc j ((((C.readBlock cs j) ++
                List.replicate (C.blockSize - (C.readBlock cs j).length) 0).take a ++
              input.take (b - a) ++
              ((C.readBlock cs j) ++
                List.replicate (C.blockSize - (C.readBlock cs j).length) 0).drop b).take
              (max (C.readBlock cs j).length b))))
          (j * C.blockSize) C.blockSize =
          C.enc j ((((C.readBlock cs j) ++
              List.replicate (C.blockSize - (C.readBlock cs j).length) 0).take a ++
            input.take (b - a) ++
            ((C.readBlock cs j) ++
              List.replicate (C.blockSize - (C.readBlock cs j).length) 0).drop b).take
            (max (C.readBlock cs j).length b)) := by
        rw [sbRead_write_front _ _ _ (by omega) (by rw [he, hargLen]; omega)]
        have htail : sbRead cs
            (j * C.blockSize +
              (C.enc j ((((C.readBlock cs j) ++
                  List.replicate (C.blockSize - (C.readBlock cs j).length) 0).take a ++
                input.take (b - a) ++
                ((C.readBlock cs j) ++
                  List.replicate (C.blockSize - (C.readBlock cs j).length) 0).drop b).take
                (max (C.readBlock cs j).length b))).length)
            (C.blockSize -
              (C.enc j ((((C.readBlock cs j) ++
                  List.replicate (C.blockSize - (C.readBlock cs j).length) 0).take a ++
                input.take (b - a) ++
                ((C.readBlock cs j) ++
                  List.replicate (C.blockSize - (C.readBlock cs j).length) 0).drop b).take
                (max (C.readBlock cs j).length b))).length) = [] := by
          apply List.eq_nil_of_length_eq_zero
          rw [length_sbRead, he, hargLen]
          omega
        rw [htail, List.append_nil]
      rw [hLHS, hinv]
      -- the reference side reads back the same patch
      apply Eq.symm
      apply list_ext_byteAt
      · rw [length_sbRead, length_sbWrite, hinsLen, hargLen]
        omega
      · intro i hi
        rw [length_sbRead, length_sbWrite, hinsLen] at hi
        have him : i < max (C.readBlock cs j).length b := by omega
        conv_rhs => rw [byteAt_take]
        rw [if_pos him,
          byteAt_patched (C.readBlock cs j) (input.take (b - a)) C.blockSize a b i
            hrcB (by omega) hbB (by omega) hinsLen,
          byteAt_sbRead, if_pos (by omega), byteAt_sbWrite, hinsLen]
        by_cases h1 : i < a
        · rw [if_pos h1, if_neg (by omega), byteAt_buf _ _ _ hrcB,
            if_pos (by omega), hblk, byteAt_sbRead, if_pos (by omega)]
        · by_cases h2 : i < b
          · rw [if_neg h1, if_pos h2, if_pos (by omega)]
            congr 1
            omega
          · rw [if_neg h1, if_neg h2, if_neg (by omega), byteAt_buf _ _ _ hrcB,
              if_pos (by omega), hblk, byteAt_sbRead, if_pos (by omega)]
    · -- any other block is untouched on both sides
      rw [sbRead_write_other_block _ hjk (Nat.le_refl _)
          (by rw [he, hargLen]; omega) (by omega),
        sbRead_write_other_block _ hjk (by omega)
          (by rw [hinsLen]; omega) (by omega)]
      exact hInv.block j

/-- A write at a block boundary past the end of the store: raw blocks that
were full stay unchanged. -/
theorem sbRead_write_gap_below {s : List Nat} (B : Nat) (w : List Nat)
    {j k : Nat} (hjb : j * B + B ≤ s.length) (hlo : s.length ≤ k * B) :
    sbRead (sbWrite s (k * B) w) (j * B) B = sbRead s (j * B) B := by
  apply list_ext_byteAt
  · simp
    omega
  · intro i hi
    simp only [length_sbRead] at hi
    rw [byteAt_sbRead, byteAt_sbRead, byteAt_sbWrite]
    by_cases h1 : i < B
    · rw [if_pos h1, if_pos h1, if_neg (by omega)]
    · rw [if_neg h1, if_neg h1]

/-- Effect of `read_then_write_block` starting at a block boundary at or
past the end of the store (the sparse-resize path): the gap blocks pad with
raw zeros, which under the sparse sentinel decrypt to zeros. -/
theorem rtw_inv_gap (C : Cipher) {cs ps : List Nat} (input : List Nat) (k b : Nat)
    (he : ∀ k l, (C.enc k l).length = l.length)
    (hd : ∀ k l, (C.dec k l).length = l.length)
    (hinv : ∀ k l, C.dec k (C.enc k l) = l)
    (hz : ∀ k n, C.dec k (List.replicate n 0) = List.replicate n 0)
    (hInv : Inv C cs ps)
    (hgap : cs.length ≤ k * C.blockSize)
    (hdvd : C.blockSize ∣ cs.length)
    (hb0 : 0 < b) (hbB : b ≤ C.blockSize) (hblen : b ≤ input.length) :
    Inv C (C.readThenWriteBlock cs k 0 b input)
      (sbWrite ps (k * C.blockSize) (input.take b)) := by
  have hP := hInv.len
  have hB1 : 1 ≤ C.blockSize := by omega
  have hblkNil : C.readBlock cs k = [] := by
    rw [readBlock_def, if_pos (by simp; omega)]
  have hinsLen : (input.take b).length = b := by
    simp
    omega
  have hwLen : (C.enc k (input.take b)).length = b := by
    rw [he, hinsLen]
  have hrtw : C.readThenWriteBlock cs k 0 b input =
      sbWrite cs (k * C.blockSize) (C.enc k (input.take b)) := by
    rw [rtw_eq C cs input k 0 b hd hb0 hbB (by omega), writeBlock_def]
    congr 2
    rw [hblkNil]
    simp only [List.length_nil, Nat.sub_zero, List.nil_append, List.take_zero]
    rw [max_eq_right (Nat.zero_le b), List.take_append_eq_append_take, hinsLen,
      Nat.sub_self, List.take_zero, List.append_nil, List.take_take, min_self]
  rw [hrtw]
  obtain ⟨q, hq⟩ := hdvd
  constructor
  · rw [length_sbWrite, length_sbWrite, hwLen, hinsLen]
    omega
  · intro j
    rcases Nat.lt_or_ge j q with hjq | hjq
    · -- a full block below the old end: unchanged on both sides
      have hjb : j * C.blockSize + C.blockSize ≤ cs.length := by
        have h1 : (j + 1) * C.blockSize ≤ q * C.blockSize :=
          mul_le_mul_right' hjq C.blockSize
        have h2 : (j + 1) * C.blockSize = j * C.blockSize + C.blockSize := by ring
        have h3 : q * C.blockSize = C.blockSize * q := by ring
        omega
      rw [sbRead_write_gap_below C.blockSize _ hjb hgap,
        sbRead_write_gap_below C.blockSize _ (by omega) (by omega)]
      exact hInv.block j
    · rcases Nat.lt_trichotomy j k with hjk | hjk | hjk
      · -- a gap block: raw zeros on both sides, sparse sentinel decrypts
        -- them to zeros
        have hjlo : cs.length ≤ j * C.blockSize := by
          have h1 : q * C.blockSize ≤ j * C.blockSize :=
            mul_le_mul_right' hjq C.blockSize
          have h3 : q * C.blockSize = C.blockSize * q := by ring
          omega
        have hjhi : j * C.blockSize + C.blockSize ≤ k * C.blockSize := by
          have h1 : (j + 1) * C.blockSize ≤ k * C.blockSize :=
            mul_le_mul_right' hjk C.blockSize
          have h2 : (j + 1) * C.blockSize = j * C.blockSize + C.blockSize := by ring
          omega
        have hcs : sbRead (sbWrite cs (k * C.blockSize) (C.enc k (input.take b)))
            (j * C.blockSize) C.blockSize = List.replicate C.blockSize 0 := by
          apply list_ext_byteAt
          · rw [length_sbRead, length_sbWrite, hwLen]
            simp
            omega
          · intro i hi
            simp only [length_sbRead] at hi
            rw [byteAt_sbRead, if_pos (by omega), byteAt_sbWrite, hwLen,
              if_neg (by omega), byteAt_eq_zero_of_le (by omega),
              byteAt_replicate, if_pos (by omega)]
        have hps : sbRead (sbWrite ps (k * C.blockSize) (input.take b))
            (j * C.blockSize) C.blockSize = List.replicate C.blockSize 0 := by
          apply list_ext_byteAt
          · rw [length_sbRead, length_sbWrite, hinsLen]
            simp
            omega
          · intro i hi
            simp only [length_sbRead] at hi
            rw [byteAt_sbRead, if_pos (by omega), byteAt_sbWrite, hinsLen,
              if_neg (by omega), byteAt_eq_zero_of_le (by omega),
              byteAt_replicate, if_pos (by omega)]
        rw [hcs, hps, hz]
      · -- the written block itself
        subst hjk
        have hcs : sbRead (sbWrite cs (j * C.blockSize) (C.enc j (input.take b)))
            (j * C.blockSize) C.blockSize = C.enc j (input.take b) := by
          apply list_ext_byteAt
          · rw [length_sbRead, length_sbWrite, hwLen]
            omega
          · intro i hi
            simp only [length_sbRead, length_sbWrite, hwLen] at hi
            rw [byteAt_sbRead, if_pos (by omega), byteAt_sbWrite, hwLen,
              if_pos (by omega)]
            congr 1
            omega
        have hps : sbRead (sbWrite ps (j * C.blockSize) (input.take b))
            (j * C.blockSize) C.blockSize = input.take b := by
          apply list_ext_byteAt
          · rw [length_sbRead, length_sbWrite, hinsLen]
            omega
          · intro i hi
            simp only [length_sbRead, length_sbWrite, hinsLen] at hi
            rw [byteAt_sbRead, if_pos (by omega), byteAt_sbWrite, hinsLen,
              if_pos (by omega)]
            congr 1
            omega
        rw [hcs, hps, hinv]
      · -- blocks past the written one: empty on both sides
        have hjhi : k * C.blockSize + C.blockSize ≤ j * C.blockSize := by
          have h1 : (k + 1) * C.blockSize ≤ j * C.blockSize :=
            mul_le_mul_right' hjk C.blockSize
          have h2 : (k + 1) * C.blockSize = k * C.blockSize + C.blockSize := by ring
          omega
        have hcs : sbRead (sbWrite cs (k * C.blockSize) (C.enc k (input.take b)))
            (j * C.blockSize) C.blockSize = [] := by
          apply List.eq_nil_of_length_eq_zero
          rw [length_sbRead, length_sbWrite, hwLen]
          omega
        have hps : sbRead (sbWrite ps (k * C.blockSize) (input.take b))
            (j * C.blockSize) C.blockSize = [] := by
          apply List.eq_nil_of_length_eq_zero
          rw [length_sbRead, length_sbWrite, hinsLen]
          omega
        rw [hcs, hps]
        have : (C.dec j []).length = 0 := by rw [hd]; rfl
        exact List.eq_nil_of_length_eq_zero this

/-- Reading zero bytes yields nothing. -/
theorem sbRead_zero (s : List Nat) (off : Nat) : sbRead s off 0 = [] := by
  simp [sbRead]

/-- Under the invariant, the partial-block read returns the reference bytes
at `k·B + begin`, clamped to the block's actual extent. -/
theorem readBlockRange_eq (C : Cipher) {cs ps : List Nat} (k a b : Nat)
    (hd : ∀ k l, (C.dec k l).length = l.length)
    (hInv : Inv C cs ps) (hab : a < b) (hbB : b ≤ C.blockSize) :
    C.readBlockRange cs k a b =
      sbRead ps (k * C.blockSize + a)
        (min b (min C.blockSize (ps.length - k * C.blockSize)) - a) := by
  have hP := hInv.len
  have hblk := readBlock_eq_of_inv hd hInv k
  have hrc : (C.readBlock cs k).length =
      min C.blockSize (ps.length - k * C.blockSize) := by
    rw [hblk, length_sbRead]
  rw [readBlockRange_def]
  by_cases hfull : a = 0 ∧ b = C.blockSize
  · obtain ⟨ha0, hbB2⟩ := hfull
    subst ha0
    rw [if_pos ⟨rfl, hbB2⟩, hblk]
    apply list_ext_byteAt
    · rw [length_sbRead, length_sbRead]
      omega
    · intro i hi
      rw [length_sbRead] at hi
      rw [byteAt_sbRead, byteAt_sbRead, if_pos (by omega), if_pos (by omega)]
      congr 1
  · rw [if_neg hfull, if_neg (by omega)]
    by_cases hrca : (C.readBlock cs k).length ≤ a
    · rw [if_pos hrca]
      have hc0 : min b (min C.blockSize (ps.length - k * C.blockSize)) - a = 0 := by
        omega
      rw [hc0, sbRead_zero]
    · rw [if_neg hrca]
      apply list_ext_byteAt
      · rw [List.length_take, List.length_drop, length_sbRead, hrc]
        omega
      · intro i hi
        rw [List.length_take, List.length_drop, hrc] at hi
        rw [byteAt_take, byteAt_sbRead]
        rw [if_pos (by omega), if_pos (by omega), byteAt_drop, hblk,
          byteAt_sbRead, if_pos (by omega)]
        congr 1
        omega

/-- One unfolding of the read loop, with the per-iteration quantities
named. -/
theorem readGo_succ (C : Cipher) (f : Nat) (cs : List Nat) (off len k start a b : Nat)
    (hk : k = off / C.blockSize) (hstart : start = k * C.blockSize)
    (ha : a = off - start) (hb : b = min C.blockSize (off + len - start)) :
    C.readGo (f + 1) cs off len =
      if len = 0 then []
      else if (C.readBlockRange cs k a b).length < b - a then C.readBlockRange cs k a b
      else C.readBlockRange cs k a b ++
        C.readGo f cs (off + (C.readBlockRange cs k a b).length)
          (len - (C.readBlockRange cs k a b).length) := by
  subst hk hstart ha hb
  rfl

/-- Under the invariant, `CryptStream::read` returns exactly what the
reference byte array returns. -/
theorem readGo_eq (C : Cipher) {cs ps : List Nat}
    (hB : 1 ≤ C.blockSize)
    (hd : ∀ k l, (C.dec k l).length = l.length)
    (hInv : Inv C cs ps) :
    ∀ fuel off len, len ≤ fuel → C.readGo fuel cs off len = sbRead ps off len := by
  have hP := hInv.len
  intro fuel
  induction fuel with
  | zero =>
    intro off len h
    have h0 : len = 0 := by omega
    subst h0
    rw [sbRead_zero]
    rfl
  | succ f ih =>
    intro off len hlen
    obtain ⟨k, hk⟩ : ∃ k, k = off / C.blockSize := ⟨_, rfl⟩
    obtain ⟨start, hstart⟩ : ∃ s, s = k * C.blockSize := ⟨_, rfl⟩
    obtain ⟨a, ha⟩ : ∃ a, a = off - start := ⟨_, rfl⟩
    obtain ⟨b, hb⟩ : ∃ b, b = min C.blockSize (off + len - start) := ⟨_, rfl⟩
    rw [readGo_succ C f cs off len k start a b hk hstart ha hb]
    by_cases h0 : len = 0
    · subst h0
      rw [if_pos rfl, sbRead_zero]
    · rw [if_neg h0]
      have hstart_le : start ≤ off := by
        rw [hstart, hk]
        exact Nat.div_mul_le_self off C.blockSize
      have hmod : off % C.blockSize < C.blockSize := Nat.mod_lt off (by omega)
      have hdm : C.blockSize * (off / C.blockSize) + off % C.blockSize = off :=
        Nat.div_add_mod off C.blockSize
      have hcomm : k * C.blockSize = C.blockSize * (off / C.blockSize) := by
        rw [hk]
        exact Nat.mul_comm _ _
      have haB : a < C.blockSize := by omega
      have hoffeq : k * C.blockSize + a = off := by omega
      have hab : a < b := by omega
      have hbB : b ≤ C.blockSize := by omega
      rw [readBlockRange_eq C k a b hd hInv hab hbB, hoffeq]
      obtain ⟨c, hc⟩ :
          ∃ c, c = min b (min C.blockSize (ps.length - k * C.blockSize)) - a :=
        ⟨_, rfl⟩
      rw [← hc]
      have hlenc : (sbRead ps off c).length = c := by
        rw [length_sbRead]
        omega
      rw [hlenc]
      by_cases hshort : c < b - a
      · rw [if_pos hshort]
        apply list_ext_byteAt
        · rw [length_sbRead, length_sbRead]
          omega
        · intro i hi
          rw [length_sbRead] at hi
          rw [byteAt_sbRead, byteAt_sbRead, if_pos (by omega), if_pos (by omega)]
      · rw [if_neg hshort]
        have hceq : c = b - a := by omega
        rw [ih (off + c) (len - c) (by omega)]
        rw [sbRead_split ps off c len (by omega)]

/-- One unfolding of the `unchecked_write` loop, with the per-iteration
quantities named. -/
theorem writeGo_succ (C : Cipher) (f : Nat) (cs : List Nat) (off : Nat)
    (input : List Nat) (k start a b : Nat)
    (hk : k = off / C.blockSize) (hstart : start = k * C.blockSize)
    (ha : a = off - start) (hb : b = min C.blockSize (off + input.length - start)) :
    C.writeGo (f + 1) cs off input =
      if input.length = 0 then cs
      else
        C.writeGo f (C.readThenWriteBlock cs k a b input) (off + (b - a))
          (input.drop (b - a)) := by
  subst hk hstart ha hb
  rfl

/-- Under the invariant, `unchecked_write` at an offset not past the end
acts on the reference as a plain in-place write. -/
theorem writeGo_inv (C : Cipher)
    (hB : 1 ≤ C.blockSize)
    (he : ∀ k l, (C.enc k l).length = l.length)
    (hd : ∀ k l, (C.dec k l).length = l.length)
    (hinv : ∀ k l, C.dec k (C.enc k l) = l) :
    ∀ fuel (input : List Nat) (off : Nat) (cs ps : List Nat),
      input.length ≤ fuel → Inv C cs ps → off ≤ cs.length →
      Inv C (C.writeGo fuel cs off input) (sbWrite ps off input) := by
  intro fuel
  induction fuel with
  | zero =>
    intro input off cs ps hf hInv hoff
    have hP := hInv.len
    have hnil : input = [] := List.eq_nil_of_length_eq_zero (by omega)
    subst hnil
    rw [sbWrite_nil (by omega : off ≤ ps.length)]
    exact hInv
  | succ f ih =>
    intro input off cs ps hf hInv hoff
    have hP := hInv.len
    by_cases h0 : input.length = 0
    · have hnil : input = [] := List.eq_nil_of_length_eq_zero h0
      subst hnil
      rw [sbWrite_nil (by omega : off ≤ ps.length)]
      exact hInv
    · obtain ⟨k, hk⟩ : ∃ k, k = off / C.blockSize := ⟨_, rfl⟩
      obtain ⟨start, hstart⟩ : ∃ s, s = k * C.blockSize := ⟨_, rfl⟩
      obtain ⟨a, ha⟩ : ∃ a, a = off - start := ⟨_, rfl⟩
      obtain ⟨b, hb⟩ :
          ∃ b, b = min C.blockSize (off + input.length - start) := ⟨_, rfl⟩
      rw [writeGo_succ C f cs off input k start a b hk hstart ha hb, if_neg h0]
      have hstart_le : start ≤ off := by
        rw [hstart, hk]
        exact Nat.div_mul_le_self off C.blockSize
      have hmod : off % C.blockSize < C.blockSize := Nat.mod_lt off (by omega)
      have hdm : C.blockSize * (off / C.blockSize) + off % C.blockSize = off :=
        Nat.div_add_mod off C.blockSize
      have hcomm : k * C.blockSize = C.blockSize * (off / C.blockSize) := by
        rw [hk]
        exact Nat.mul_comm _ _
      have haB : a < C.blockSize := by omega
      have hoffeq : k * C.blockSize + a = off := by omega
      have hab : a < b := by omega
      have hbB : b ≤ C.blockSize := by omega
      have hblen : b - a ≤ input.length := by omega
      have h1 := rtw_inv C input k a b he hd hinv hInv
        (by omega : k * C.blockSize + a ≤ cs.length) hab hbB hblen
      rw [hoffeq] at h1
      have hlen1 := h1.len
      rw [length_sbWrite, List.length_take] at hlen1
      have h2 := ih (input.drop (b - a)) (off + (b - a)) _ _
        (by rw [List.length_drop]; omega) h1 (by omega)
      have hcomb : sbWrite (sbWrite ps off (input.take (b - a))) (off + (b - a))
          (input.drop (b - a)) = sbWrite ps off input := by
        have htake : (input.take (b - a)).length = b - a := by
          rw [List.length_take]
          omega
        have hsa := sbWrite_append ps off (input.take (b - a)) (input.drop (b - a))
        rw [htake, List.take_append_drop] at hsa
        exact hsa
      rw [← hcomb]
      exact h2

/-- One unfolding of the `zero_fill` loop, with the per-iteration
quantities named. -/
theorem zeroFillGo_succ (C : Cipher) (f : Nat) (cs : List Nat) (off finish k start a b : Nat)
    (hk : k = off / C.blockSize) (hstart : start = k * C.blockSize)
    (ha : a = off - start) (hb : b = min C.blockSize (finish - start)) :
    C.zeroFillGo (f + 1) cs off finish =
      if off < finish then
        C.zeroFillGo f
          (C.readThenWriteBlock cs k a b (List.replicate (b - a) 0))
          (off + (b - a)) finish
      else cs := by
  subst hk hstart ha hb
  rfl

/-- Under the invariant, `zero_fill` over `[off, finish)` starting at an
offset not past the end writes zeros over that range of the reference. -/
theorem zeroFillGo_inv (C : Cipher)
    (hB : 1 ≤ C.blockSize)
    (he : ∀ k l, (C.enc k l).length = l.length)
    (hd : ∀ k l, (C.dec k l).length = l.length)
    (hinv : ∀ k l, C.dec k (C.enc k l) = l) :
    ∀ fuel (off : Nat) (cs ps : List Nat) (finish : Nat),
      finish - off ≤ fuel → Inv C cs ps → off ≤ cs.length →
      Inv C (C.zeroFillGo fuel cs off finish)
        (sbWrite ps off (List.replicate (finish - off) 0)) := by
  intro fuel
  induction fuel with
  | zero =>
    intro off cs ps finish hf hInv hoff
    have hP := hInv.len
    have h0 : finish - off = 0 := by omega
    rw [h0, List.replicate_zero, sbWrite_nil (by omega : off ≤ ps.length)]
    exact hInv
  | succ f ih =>
    intro off cs ps finish hf hInv hoff
    have hP := hInv.len
    by_cases hof : off < finish
    · obtain ⟨k, hk⟩ : ∃ k, k = off / C.blockSize := ⟨_, rfl⟩
      obtain ⟨start, hstart⟩ : ∃ s, s = k * C.blockSize := ⟨_, rfl⟩
      obtain ⟨a, ha⟩ : ∃ a, a = off - start := ⟨_, rfl⟩
      obtain ⟨b, hb⟩ : ∃ b, b = min C.blockSize (finish - start) := ⟨_, rfl⟩
      rw [zeroFillGo_succ C f cs off finish k start a b hk hstart ha hb,
        if_pos hof]
      have hstart_le : start ≤ off := by
        rw [hstart, hk]
        exact Nat.div_mul_le_self off C.blockSize
      have hmod : off % C.blockSize < C.blockSize := Nat.mod_lt off (by omega)
      have hdm : C.blockSize * (off / C.blockSize) + off % C.blockSize = off :=
        Nat.div_add_mod off C.blockSize
      have hcomm : k * C.blockSize = C.blockSize * (off / C.blockSize) := by
        rw [hk]
        exact Nat.mul_comm _ _
      have haB : a < C.blockSize := by omega
      have hoffeq : k * C.blockSize + a = off := by omega
      have hab : a < b := by omega
      have hbB : b ≤ C.blockSize := by omega
      have h1 := rtw_inv C (List.replicate (b - a) 0) k a b he hd hinv hInv
        (by omega : k * C.blockSize + a ≤ cs.length) hab hbB
        (by rw [List.length_replicate])
      rw [hoffeq, List.take_replicate, min_self] at h1
      have hlen1 := h1.len
      rw [length_sbWrite, List.length_replicate] at hlen1
      have h2 := ih (off + (b - a)) _ _ finish (by omega) h1 (by omega)
      have hcomb : sbWrite (sbWrite ps off (List.replicate (b - a) 0))
          (off + (b - a)) (List.replicate (finish - (off + (b - a))) 0) =
          sbWrite ps off (List.replicate (finish - off) 0) := by
        have hsa := sbWrite_append ps off (List.replicate (b - a) 0)
          (List.replicate (finish - (off + (b - a))) 0)
        rw [List.length_replicate, ← List.replicate_add] at hsa
        rw [show b - a + (finish - (off + (b - a))) = finish - off by omega] at hsa
        exact hsa
      rw [← hcomb]
      exact h2
    · have h0 : finish - off = 0 := by omega
      rw [h0, List.replicate_zero, sbWrite_nil (by omega : off ≤ ps.length)]
      have hstop : C.zeroFillGo (f + 1) cs off finish = cs := by
        obtain ⟨k, hk⟩ : ∃ k, k = off / C.blockSize := ⟨_, rfl⟩
        obtain ⟨start, hstart⟩ : ∃ s, s = k * C.blockSize := ⟨_, rfl⟩
        obtain ⟨a, ha⟩ : ∃ a, a = off - start := ⟨_, rfl⟩
        obtain ⟨b, hb⟩ : ∃ b, b = min C.blockSize (finish - start) := ⟨_, rfl⟩
        rw [zeroFillGo_succ C f cs off finish k start a b hk hstart ha hb,
          if_neg hof]
      rw [hstop]
      exact hInv

/-- `zero_fill` wrapper of `zeroFillGo_inv` (exact fuel). -/
theorem zeroFill_inv (C : Cipher) {cs ps : List Nat} (off finish : Nat)
    (hB : 1 ≤ C.blockSize)
    (he : ∀ k l, (C.enc k l).length = l.length)
    (hd : ∀ k l, (C.dec k l).length = l.length)
    (hinv : ∀ k l, C.dec k (C.enc k l) = l)
    (hInv : Inv C cs ps) (hoff : off ≤ cs.length) :
    Inv C (C.zeroFill cs off finish)
      (sbWrite ps off (List.replicate (finish - off) 0)) :=
  zeroFillGo_inv C hB he hd hinv (finish - off) off cs ps finish (Nat.le_refl _)
    hInv hoff

/-- `zero_fill` starting at a block boundary at or past a block-aligned
end of the store (the second call of the sparse resize path): the skipped
whole blocks become raw-zero sparse holes, which decrypt to zeros. -/
theorem zeroFill_inv_gap (C : Cipher) {cs ps : List Nat} (off finish : Nat)
    (hB : 1 ≤ C.blockSize)
    (he : ∀ k l, (C.enc k l).length = l.length)
    (hd : ∀ k l, (C.dec k l).length = l.length)
    (hinv : ∀ k l, C.dec k (C.enc k l) = l)
    (hz : ∀ k n, C.dec k (List.replicate n 0) = List.replicate n 0)
    (hInv : Inv C cs ps)
    (hdvd : C.blockSize ∣ cs.length) (hoffdvd : C.blockSize ∣ off)
    (hlen : cs.length ≤ off) (hof : off < finish) :
    Inv C (C.zeroFill cs off finish)
      (sbWrite ps off (List.replicate (finish - off) 0)) := by
  have hP := hInv.len
  unfold Cipher.zeroFill
  obtain ⟨g, hg⟩ : ∃ g, finish - off = g + 1 := ⟨finish - off - 1, by omega⟩
  have hfuel : C.zeroFillGo (finish - off) cs off finish =
      C.zeroFillGo (g + 1) cs off finish := by rw [hg]
  rw [hfuel]
  obtain ⟨k, hk⟩ : ∃ k, k = off / C.blockSize := ⟨_, rfl⟩
  obtain ⟨start, hstart⟩ : ∃ s, s = k * C.blockSize := ⟨_, rfl⟩
  obtain ⟨a, ha⟩ : ∃ a, a = off - start := ⟨_, rfl⟩
  obtain ⟨b, hb⟩ : ∃ b, b = min C.blockSize (finish - start) := ⟨_, rfl⟩
  rw [zeroFillGo_succ C g cs off finish k start a b hk hstart ha hb, if_pos hof]
  have hstart_eq : start = off := by
    rw [hstart, hk]
    exact Nat.div_mul_cancel hoffdvd
  have ha0 : a = 0 := by omega
  have hb0 : 0 < b := by omega
  have hbB : b ≤ C.blockSize := by omega
  have hkoff : k * C.blockSize = off := by omega
  subst ha0
  have h1 := rtw_inv_gap C (List.replicate (b - 0) 0) k b he hd hinv hz hInv
    (by omega : cs.length ≤ k * C.blockSize) hdvd hb0 hbB
    (by rw [List.length_replicate]; omega)
  rw [hkoff, List.take_replicate, min_eq_left (by omega : b ≤ b - 0)] at h1
  have hlen1 := h1.len
  rw [length_sbWrite, List.length_replicate] at hlen1
  have h2 := zeroFillGo_inv C hB he hd hinv g (off + (b - 0)) _ _ finish
    (by omega) h1 (by omega)
  have hcomb : sbWrite (sbWrite ps off (List.replicate b 0))
      (off + (b - 0)) (List.replicate (finish - (off + (b - 0))) 0) =
      sbWrite ps off (List.replicate (finish - off) 0) := by
    have hsa := sbWrite_append ps off (List.replicate b 0)
      (List.replicate (finish - (off + (b - 0))) 0)
    rw [List.length_replicate, ← List.replicate_add] at hsa
    rw [show b + (finish - (off + (b - 0))) = finish - off by omega] at hsa
    rw [show off + b = off + (b - 0) by omega] at hsa
    exact hsa
  rw [← hcomb]
  exact h2

/-- Resizing to the current length. -/
theorem sbResize_of_length {s : List Nat} {n : Nat} (h : s.length = n) :
    sbResize s n = s := by
  rw [← h, sbResize_self]

/-- Zero-extending a block-aligned store by plain `resize` preserves the
invariant when all-zero blocks decrypt to zeros (the sparse sentinel). -/
theorem resize_zeros_inv (C : Cipher) {cs ps : List Nat} (n : Nat)
    (hB : 1 ≤ C.blockSize)
    (hd : ∀ k l, (C.dec k l).length = l.length)
    (hz : ∀ k n, C.dec k (List.replicate n 0) = List.replicate n 0)
    (hInv : Inv C cs ps)
    (hdvd : C.blockSize ∣ cs.length) (hgrow : cs.length ≤ n) :
    Inv C (sbResize cs n) (sbResize ps n) := by
  have hP := hInv.len
  obtain ⟨q, hq⟩ := hdvd
  constructor
  · simp
  · intro j
    rcases Nat.lt_or_ge j q with hjq | hjq
    · have hjb : j * C.blockSize + C.blockSize ≤ cs.length := by
        have h1 : (j + 1) * C.blockSize ≤ q * C.blockSize :=
          mul_le_mul_right' hjq C.blockSize
        have h2 : (j + 1) * C.blockSize = j * C.blockSize + C.blockSize := by ring
        have h3 : q * C.blockSize = C.blockSize * q := by ring
        omega
      have hcs : sbRead (sbResize cs n) (j * C.blockSize) C.blockSize =
          sbRead cs (j * C.blockSize) C.blockSize := by
        apply list_ext_byteAt
        · simp
          omega
        · intro i hi
          simp only [length_sbRead, length_sbResize] at hi
          rw [byteAt_sbRead, byteAt_sbRead, if_pos (by omega), if_pos (by omega),
            byteAt_sbResize, if_pos (by omega)]
      have hps : sbRead (sbResize ps n) (j * C.blockSize) C.blockSize =
          sbRead ps (j * C.blockSize) C.blockSize := by
        apply list_ext_byteAt
        · simp
          omega
        · intro i hi
          simp only [length_sbRead, length_sbResize] at hi
          rw [byteAt_sbRead, byteAt_sbRead, if_pos (by omega), if_pos (by omega),
            byteAt_sbResize, if_pos (by omega)]
      rw [hcs, hps]
      exact hInv.block j
    · have hjlo : cs.length ≤ j * C.blockSize := by
        have h1 : q * C.blockSize ≤ j * C.blockSize :=
          mul_le_mul_right' hjq C.blockSize
        have h3 : q * C.blockSize = C.blockSize * q := by ring
        omega
      have hcs : sbRead (sbResize cs n) (j * C.blockSize) C.blockSize =
          List.replicate (min C.blockSize (n - j * C.blockSize)) 0 := by
        apply list_ext_byteAt
        · simp
        · intro i hi
          simp only [length_sbRead, length_sbResize] at hi
          rw [byteAt_sbRead, if_pos (by omega), byteAt_sbResize,
            if_pos (show j * C.blockSize + i < n by omega),
            byteAt_eq_zero_of_le (show cs.length ≤ j * C.blockSize + i by omega),
            byteAt_replicate, if_pos hi]
      have hps : sbRead (sbResize ps n) (j * C.blockSize) C.blockSize =
          List.replicate (min C.blockSize (n - j * C.blockSize)) 0 := by
        apply list_ext_byteAt
        · simp
        · intro i hi
          simp only [length_sbRead, length_sbResize] at hi
          rw [byteAt_sbRead, if_pos (by omega), byteAt_sbResize,
            if_pos (show j * C.blockSize + i < n by omega),
            byteAt_eq_zero_of_le (show ps.length ≤ j * C.blockSize + i by omega),
            byteAt_replicate, if_pos hi]
      rw [hcs, hps, hz]

/-- Appending zeros at the end and then resizing to a larger size is the
same as resizing directly. -/
theorem sbResize_absorb_zeros (s : List Nat) (m n : Nat)
    (h : s.length + m ≤ n) :
    sbResize (sbWrite s s.length (List.replicate m 0)) n = sbResize s n := by
  apply list_ext_byteAt
  · simp
  · intro i hi
    simp only [length_sbResize] at hi
    rw [byteAt_sbResize, byteAt_sbResize, if_pos hi, if_pos hi, byteAt_sbWrite,
      List.length_replicate]
    by_cases h1 : s.length ≤ i ∧ i < s.length + m
    · rw [if_pos h1, byteAt_replicate, if_pos (by omega),
        byteAt_eq_zero_of_le (by omega)]
    · rw [if_neg h1]

/-- Let-free restatement of `Cipher.resize`. -/
theorem resize_def (C : Cipher) (cs : List Nat) (n : Nat) :
    C.resize cs n =
      if n = cs.length then cs
      else if n < cs.length then
        sbResize
          (if 0 < n % C.blockSize then
            C.writeBlock cs (n / C.blockSize)
              (((C.readBlock cs (n / C.blockSize)) ++
                  List.replicate
                    (C.blockSize - (C.readBlock cs (n / C.blockSize)).length) 0).take
                (n % C.blockSize))
          else cs) n
      else
        sbResize
          (if ¬ C.sparse ∨ cs.length / C.blockSize = n / C.blockSize then
            C.zeroFill cs cs.length n
          else
            C.zeroFill
              (C.zeroFill cs cs.length
                (cs.length / C.blockSize * C.blockSize + C.blockSize))
              (n / C.blockSize * C.blockSize) n) n := rfl

/-- Shrinking (`new_size < size`): the residue of the final block is read,
truncated and re-encrypted, then the store is cut; the reference is simply
truncated. -/
theorem resize_shrink_inv (C : Cipher) {cs ps : List Nat} (n : Nat)
    (hB : 1 ≤ C.blockSize)
    (he : ∀ k l, (C.enc k l).length = l.length)
    (hd : ∀ k l, (C.dec k l).length = l.length)
    (hinv : ∀ k l, C.dec k (C.enc k l) = l)
    (hInv : Inv C cs ps) (hlt : n < cs.length) :
    Inv C
      (sbResize
        (if 0 < n % C.blockSize then
          C.writeBlock cs (n / C.blockSize)
            (((C.readBlock cs (n / C.blockSize)) ++
                List.replicate
                  (C.blockSize - (C.readBlock cs (n / C.blockSize)).length) 0).take
              (n % C.blockSize))
        else cs) n)
      (sbResize ps n) := by
  have hP := hInv.len
  have hdmn := Nat.div_add_mod n C.blockSize
  have hmodn : n % C.blockSize < C.blockSize := Nat.mod_lt _ (by omega)
  have hcon : n / C.blockSize * C.blockSize = C.blockSize * (n / C.blockSize) :=
    Nat.mul_comm _ _
  have hblk := readBlock_eq_of_inv hd hInv (n / C.blockSize)
  have hrc : (C.readBlock cs (n / C.blockSize)).length =
      min C.blockSize (ps.length - n / C.blockSize * C.blockSize) := by
    rw [hblk, length_sbRead]
  by_cases hr : 0 < n % C.blockSize
  · rw [if_pos hr]
    have hrcr : n % C.blockSize < (C.readBlock cs (n / C.blockSize)).length := by
      omega
    have htake : ((C.readBlock cs (n / C.blockSize)) ++
        List.replicate (C.blockSize - (C.readBlock cs (n / C.blockSize)).length) 0).take
          (n % C.blockSize) = (C.readBlock cs (n / C.blockSize)).take
          (n % C.blockSize) := by
      rw [List.take_append_eq_append_take,
        show n % C.blockSize - (C.readBlock cs (n / C.blockSize)).length = 0 by omega,
        List.take_zero, List.append_nil]
    rw [htake, writeBlock_def]
    have hwlen : (C.enc (n / C.blockSize)
        ((C.readBlock cs (n / C.blockSize)).take (n % C.blockSize))).length =
        n % C.blockSize := by
      rw [he, List.length_take]
      omega
    constructor
    · simp
    · intro j
      rcases Nat.lt_trichotomy j (n / C.blockSize) with hj | hj | hj
      · have hjb : j * C.blockSize + C.blockSize ≤ n / C.blockSize * C.blockSize := by
          have h1 : (j + 1) * C.blockSize ≤ n / C.blockSize * C.blockSize :=
            mul_le_mul_right' hj C.blockSize
          have h2 : (j + 1) * C.blockSize = j * C.blockSize + C.blockSize := by ring
          omega
        have hcs : sbRead (sbResize (sbWrite cs (n / C.blockSize * C.blockSize)
            (C.enc (n / C.blockSize)
              ((C.readBlock cs (n / C.blockSize)).take (n % C.blockSize)))) n)
            (j * C.blockSize) C.blockSize = sbRead cs (j * C.blockSize) C.blockSize := by
          apply list_ext_byteAt
          · simp
            omega
          · intro i hi
            simp only [length_sbRead, length_sbResize] at hi
            rw [byteAt_sbRead, byteAt_sbRead, if_pos (by omega), if_pos (by omega),
              byteAt_sbResize, if_pos (by omega), byteAt_sbWrite, hwlen,
              if_neg (by omega)]
        have hps : sbRead (sbResize ps n) (j * C.blockSize) C.blockSize =
            sbRead ps (j * C.blockSize) C.blockSize := by
          apply list_ext_byteAt
          · simp
            omega
          · intro i hi
            simp only [length_sbRead, length_sbResize] at hi
            rw [byteAt_sbRead, byteAt_sbRead, if_pos (by omega), if_pos (by omega),
              byteAt_sbResize, if_pos (by omega)]
        rw [hcs, hps]
        exact hInv.block j
      · subst hj
        have hcs : sbRead (sbResize (sbWrite cs (n / C.blockSize * C.blockSize)
            (C.enc (n / C.blockSize)
              ((C.readBlock cs (n / C.blockSize)).take (n % C.blockSize)))) n)
            (n / C.blockSize * C.blockSize) C.blockSize =
            C.enc (n / C.blockSize)
              ((C.readBlock cs (n / C.blockSize)).take (n % C.blockSize)) := by
          apply list_ext_byteAt
          · simp only [length_sbRead, length_sbResize, hwlen]
            omega
          · intro i hi
            simp only [length_sbRead, length_sbResize] at hi
            rw [byteAt_sbRead, if_pos (by omega), byteAt_sbResize,
              if_pos (by omega), byteAt_sbWrite, hwlen, if_pos (by omega)]
            congr 1
            omega
        have hps : sbRead (sbResize ps n) (n / C.blockSize * C.blockSize)
            C.blockSize =
            (C.readBlock cs (n / C.blockSize)).take (n % C.blockSize) := by
          apply list_ext_byteAt
          · simp only [length_sbRead, length_sbResize, List.length_take]
            omega
          · intro i hi
            simp only [length_sbRead, length_sbResize] at hi
            rw [byteAt_sbRead, if_pos (by omega), byteAt_sbResize,
              if_pos (by omega), byteAt_take, if_pos (by omega), hblk,
              byteAt_sbRead, if_pos (by omega)]
        rw [hcs, hps, hinv]
      · have hjb : n / C.blockSize * C.blockSize + C.blockSize ≤ j * C.blockSize := by
          have h1 : (n / C.blockSize + 1) * C.blockSize ≤ j * C.blockSize :=
            mul_le_mul_right' hj C.blockSize
          have h2 : (n / C.blockSize + 1) * C.blockSize =
              n / C.blockSize * C.blockSize + C.blockSize := by ring
          omega
        have hcs : sbRead (sbResize (sbWrite cs (n / C.blockSize * C.blockSize)
            (C.enc (n / C.blockSize)
              ((C.readBlock cs (n / C.blockSize)).take (n % C.blockSize)))) n)
            (j * C.blockSize) C.blockSize = [] := by
          apply List.eq_nil_of_length_eq_zero
          simp only [length_sbRead, length_sbResize]
          omega
        have hps : sbRead (sbResize ps n) (j * C.blockSize) C.blockSize = [] := by
          apply List.eq_nil_of_length_eq_zero
          simp only [length_sbRead, length_sbResize]
          omega
        rw [hcs, hps]
        have hz0 : (C.dec j []).length = 0 := by rw [hd]; rfl
        exact List.eq_nil_of_length_eq_zero hz0
  · rw [if_neg hr]
    have hneq : n = n / C.blockSize * C.blockSize := by omega
    constructor
    · simp
    · intro j
      rcases Nat.lt_or_ge j (n / C.blockSize) with hj | hj
      · have hjb : j * C.blockSize + C.blockSize ≤ n := by
          have h1 : (j + 1) * C.blockSize ≤ n / C.blockSize * C.blockSize :=
            mul_le_mul_right' hj C.blockSize
          have h2 : (j + 1) * C.blockSize = j * C.blockSize + C.blockSize := by ring
          omega
        have hcs : sbRead (sbResize cs n) (j * C.blockSize) C.blockSize =
            sbRead cs (j * C.blockSize) C.blockSize := by
          apply list_ext_byteAt
          · simp
            omega
          · intro i hi
            simp only [length_sbRead, length_sbResize] at hi
            rw [byteAt_sbRead, byteAt_sbRead, if_pos (by omega), if_pos (by omega),
              byteAt_sbResize, if_pos (by omega)]
        have hps : sbRead (sbResize ps n) (j * C.blockSize) C.blockSize =
            sbRead ps (j * C.blockSize) C.blockSize := by
          apply list_ext_byteAt
          · simp
            omega
          · intro i hi
            simp only [length_sbRead, length_sbResize] at hi
            rw [byteAt_sbRead, byteAt_sbRead, if_pos (by omega), if_pos (by omega),
              byteAt_sbResize, if_pos (by omega)]
        rw [hcs, hps]
        exact hInv.block j
      · have hjb : n ≤ j * C.blockSize := by
          have h1 : n / C.blockSize * C.blockSize ≤ j * C.blockSize :=
            mul_le_mul_right' hj C.blockSize
          omega
        have hcs : sbRead (sbResize cs n) (j * C.blockSize) C.blockSize = [] := by
          apply List.eq_nil_of_length_eq_zero
          simp only [length_sbRead, length_sbResize]
          omega
        have hps : sbRead (sbResize ps n) (j * C.blockSize) C.blockSize = [] := by
          apply List.eq_nil_of_length_eq_zero
          simp only [length_sbRead, length_sbResize]
          omega
        rw [hcs, hps]
        have hz0 : (C.dec j []).length = 0 := by rw [hd]; rfl
        exact List.eq_nil_of_length_eq_zero hz0

/-- `CryptStream::resize` refines plain `resize` of the reference byte
array (spec section 4.3). -/
theorem resize_inv (C : Cipher) {cs ps : List Nat} (n : Nat)
    (hB : 1 ≤ C.blockSize)
    (he : ∀ k l, (C.enc k l).length = l.length)
    (hd : ∀ k l, (C.dec k l).length = l.length)
    (hinv : ∀ k l, C.dec k (C.enc k l) = l)
    (hzC : C.sparse = true →
      ∀ k m, C.dec k (List.replicate m 0) = List.replicate m 0)
    (hInv : Inv C cs ps) :
    Inv C (C.resize cs n) (sbResize ps n) := by
  have hP := hInv.len
  rw [resize_def]
  by_cases heq : n = cs.length
  · rw [if_pos heq, sbResize_of_length (by omega)]
    exact hInv
  · rw [if_neg heq]
    by_cases hlt : n < cs.length
    · rw [if_pos hlt]
      exact resize_shrink_inv C n hB he hd hinv hInv hlt
    · rw [if_neg hlt]
      have hgrow : cs.length < n := by omega
      by_cases hbranch : ¬ C.sparse ∨ cs.length / C.blockSize = n / C.blockSize
      · rw [if_pos hbranch]
        have h1 := zeroFill_inv C cs.length n hB he hd hinv hInv (Nat.le_refl _)
        have hl1 := h1.len
        rw [length_sbWrite, List.length_replicate] at hl1
        rw [sbResize_of_length
          (show (C.zeroFill cs cs.length n).length = n by omega)]
        have hps : sbWrite ps cs.length (List.replicate (n - cs.length) 0) =
            sbResize ps n := by
          rw [hP, ← sbResize_eq_write_zeros (by omega)]
        rw [← hps]
        exact h1
      · rw [if_neg hbranch]
        push_neg at hbranch
        obtain ⟨hsp, hkne⟩ := hbranch
        have hz := hzC hsp
        have hdm := Nat.div_add_mod cs.length C.blockSize
        have hdmn := Nat.div_add_mod n C.blockSize
        have hmodP : cs.length % C.blockSize < C.blockSize :=
          Nat.mod_lt _ (by omega)
        have hmodn : n % C.blockSize < C.blockSize := Nat.mod_lt _ (by omega)
        have hco : cs.length / C.blockSize * C.blockSize =
            C.blockSize * (cs.length / C.blockSize) := Nat.mul_comm _ _
        have hcon : n / C.blockSize * C.blockSize =
            C.blockSize * (n / C.blockSize) := Nat.mul_comm _ _
        have holdnew : cs.length / C.blockSize < n / C.blockSize := by
          have h1 : cs.length / C.blockSize ≤ n / C.blockSize :=
            Nat.div_le_div_right (by omega)
          omega
        have hnexteq : (cs.length / C.blockSize + 1) * C.blockSize =
            cs.length / C.blockSize * C.blockSize + C.blockSize := by ring
        have hnext : (cs.length / C.blockSize + 1) * C.blockSize ≤
            n / C.blockSize * C.blockSize :=
          mul_le_mul_right' (by omega) _
        have h1 := zeroFill_inv C cs.length
          (cs.length / C.blockSize * C.blockSize + C.blockSize)
          hB he hd hinv hInv (Nat.le_refl _)
        have hl1 := h1.len
        rw [length_sbWrite, List.length_replicate] at hl1
        have hcs1len : (C.zeroFill cs cs.length
            (cs.length / C.blockSize * C.blockSize + C.blockSize)).length =
            cs.length / C.blockSize * C.blockSize + C.blockSize := by
          omega
        have hdvd1 : C.blockSize ∣ (C.zeroFill cs cs.length
            (cs.length / C.blockSize * C.blockSize + C.blockSize)).length := by
          rw [hcs1len]
          exact ⟨cs.length / C.blockSize + 1, by ring⟩
        by_cases hnb : n / C.blockSize * C.blockSize < n
        · have h2 := zeroFill_inv_gap C (n / C.blockSize * C.blockSize) n
            hB he hd hinv hz h1 hdvd1 ⟨n / C.blockSize, hcon⟩
            (by omega) hnb
          have hl2 := h2.len
          rw [length_sbWrite, length_sbWrite, List.length_replicate,
            List.length_replicate] at hl2
          rw [sbResize_of_length (by omega :
            (C.zeroFill (C.zeroFill cs cs.length
              (cs.length / C.blockSize * C.blockSize + C.blockSize))
              (n / C.blockSize * C.blockSize) n).length = n)]
          have href : sbWrite
              (sbWrite ps cs.length
                (List.replicate
                  (cs.length / C.blockSize * C.blockSize + C.blockSize -
                    cs.length) 0))
              (n / C.blockSize * C.blockSize)
              (List.replicate (n - n / C.blockSize * C.blockSize) 0) =
              sbResize ps n := by
            apply list_ext_byteAt
            · simp
              omega
            · intro i hi
              rw [byteAt_sbWrite, byteAt_sbWrite, byteAt_sbResize]
              simp only [List.length_replicate]
              by_cases c1 : n / C.blockSize * C.blockSize ≤ i ∧
                  i < n / C.blockSize * C.blockSize +
                    (n - n / C.blockSize * C.blockSize)
              · rw [if_pos c1, byteAt_replicate, if_pos (by omega),
                  if_pos (by omega),
                  byteAt_eq_zero_of_le (show ps.length ≤ i by omega)]
              · rw [if_neg c1]
                by_cases c2 : cs.length ≤ i ∧
                    i < cs.length +
                      (cs.length / C.blockSize * C.blockSize + C.blockSize -
                        cs.length)
                · rw [if_pos c2, byteAt_replicate, if_pos (by omega),
                    if_pos (by omega),
                    byteAt_eq_zero_of_le (show ps.length ≤ i by omega)]
                · rw [if_neg c2]
                  by_cases c3 : i < n
                  · rw [if_pos c3]
                  · rw [if_neg c3,
                      byteAt_eq_zero_of_le (show ps.length ≤ i by omega)]
          rw [← href]
          exact h2
        · have hzf2 : C.zeroFill
              (C.zeroFill cs cs.length
                (cs.length / C.blockSize * C.blockSize + C.blockSize))
              (n / C.blockSize * C.blockSize) n =
              C.zeroFill cs cs.length
                (cs.length / C.blockSize * C.blockSize + C.blockSize) := by
            unfold Cipher.zeroFill
            rw [show n - n / C.blockSize * C.blockSize = 0 by omega]
            rfl
          rw [hzf2]
          have h3 := resize_zeros_inv C n hB hd hz h1 hdvd1 (by omega)
          have habs : sbResize
              (sbWrite ps cs.length
                (List.replicate
                  (cs.length / C.blockSize * C.blockSize + C.blockSize -
                    cs.length) 0)) n = sbResize ps n := by
            have hwr : sbWrite ps cs.length
                (List.replicate
                  (cs.length / C.blockSize * C.blockSize + C.blockSize -
                    cs.length) 0) =
                sbWrite ps ps.length
                  (List.replicate
                    (cs.length / C.blockSize * C.blockSize + C.blockSize -
                      cs.length) 0) := by
              rw [hP]
            rw [hwr]
            apply sbResize_absorb_zeros
            omega
          rw [habs] at h3
          exact h3

/-- Let-free restatement of `Cipher.write`. -/
theorem write_def (C : Cipher) (cs : List Nat) (off : Nat) (input : List Nat) :
    C.write cs off input =
      C.uncheckedWrite (if cs.length < off then C.resize cs off else cs) off input :=
  rfl

/-- `CryptStream::write` refines a plain write (with zero-filled gap) of
the reference byte array. -/
theorem write_inv (C : Cipher) {cs ps : List Nat} (off : Nat) (input : List Nat)
    (hB : 1 ≤ C.blockSize)
    (he : ∀ k l, (C.enc k l).length = l.length)
    (hd : ∀ k l, (C.dec k l).length = l.length)
    (hinv : ∀ k l, C.dec k (C.enc k l) = l)
    (hzC : C.sparse = true →
      ∀ k m, C.dec k (List.replicate m 0) = List.replicate m 0)
    (hInv : Inv C cs ps) :
    Inv C (C.write cs off input) (sbWrite ps off input) := by
  have hP := hInv.len
  rw [write_def]
  by_cases hlt : cs.length < off
  · rw [if_pos hlt]
    have h1 := resize_inv C off hB he hd hinv hzC hInv
    have hl1 := h1.len
    rw [length_sbResize] at hl1
    have h2 := writeGo_inv C hB he hd hinv input.length input off _ _
      (Nat.le_refl _) h1 (by omega)
    rw [sbWrite_sbResize input (by omega)] at h2
    exact h2
  · rw [if_neg hlt]
    exact writeGo_inv C hB he hd hinv input.length input off _ _
      (Nat.le_refl _) hInv (by omega)

/-- `CryptStream::read` refines a plain read of the reference byte
array. -/
theorem read_eq (C : Cipher) {cs ps : List Nat} (off len : Nat)
    (hB : 1 ≤ C.blockSize)
    (hd : ∀ k l, (C.dec k l).length = l.length)
    (hInv : Inv C cs ps) :
    C.read cs off len = sbRead ps off len :=
  readGo_eq C hB hd hInv len off len (Nat.le_refl _)

theorem run_cons (C : Cipher) (cs : List Nat) (op : StreamOp) (ops : List StreamOp) :
    C.run cs (op :: ops) =
      ((C.step cs op).1 :: (C.run (C.step cs op).2 ops).1,
        (C.run (C.step cs op).2 ops).2) := rfl

theorem refRun_cons (ps : List Nat) (op : StreamOp) (ops : List StreamOp) :
    refRun ps (op :: ops) =
      ((refStep ps op).1 :: (refRun (refStep ps op).2 ops).1,
        (refRun (refStep ps op).2 ops).2) := rfl

/-- Simulation: starting from any pair of stores related by the invariant,
every operation sequence produces identical observable outputs, and the
invariant persists. -/
theorem run_eq (C : Cipher)
    (hB : 1 ≤ C.blockSize)
    (he : ∀ k l, (C.enc k l).length = l.length)
    (hd : ∀ k l, (C.dec k l).length = l.length)
    (hinv : ∀ k l, C.dec k (C.enc k l) = l)
    (hzC : C.sparse = true →
      ∀ k m, C.dec k (List.replicate m 0) = List.replicate m 0) :
    ∀ (ops : List StreamOp) (cs ps : List Nat), Inv C cs ps →
      (C.run cs ops).1 = (refRun ps ops).1 ∧
        Inv C (C.run cs ops).2 (refRun ps ops).2 := by
  intro ops
  induction ops with
  | nil =>
    intro cs ps h
    exact ⟨rfl, h⟩
  | cons op ops ih =>
    intro cs ps h
    rw [run_cons, refRun_cons]
    cases op with
    | write off data =>
      simp only [Cipher.step, refStep]
      have h1 := write_inv C off data hB he hd hinv hzC h
      refine ⟨?_, (ih _ _ h1).2⟩
      rw [(ih _ _ h1).1]
    | read off len =>
      simp only [Cipher.step, refStep]
      refine ⟨?_, (ih _ _ h).2⟩
      rw [(ih _ _ h).1, read_eq C off len hB hd h]
    | resize n =>
      simp only [Cipher.step, refStep]
      have h1 := resize_inv C n hB he hd hinv hzC h
      refine ⟨?_, (ih _ _ h1).2⟩
      rw [(ih _ _ h1).1]
    | size =>
      simp only [Cipher.step, refStep, Cipher.size]
      refine ⟨?_, (ih _ _ h).2⟩
      rw [(ih _ _ h).1, h.len]

/-- The invariant holds between two empty stores. -/
theorem Inv_nil (C : Cipher) (hd : ∀ k l, (C.dec k l).length = l.length) :
    Inv C [] [] := by
  constructor
  · rfl
  · intro k
    have h0 : sbRead ([] : List Nat) (k * C.blockSize) C.blockSize = [] := by
      simp [sbRead]
    rw [h0]
    have hz0 : (C.dec k []).length = 0 := by rw [hd]; rfl
    rw [List.eq_nil_of_length_eq_zero hz0]

/-- C1: for every block size `B ≥ 1` and every finite sequence of `write`,
`read`, `resize` and `size` operations on a `CryptStream` handle (with a
length-preserving, invertible per-block cipher whose sparse holes — if the
underlying store is sparse — decrypt to zeros), the observable results
equal those of a plain resizable byte array: reads return the bytes most
recently written at each covered offset, gaps from `resize`-extension and
writes past the end read as zeros, and `size()` agrees with the reference
after every operation. -/
theorem cryptStream_refines_byte_array (C : Cipher) (ops : List StreamOp)
    (hB : 1 ≤ C.blockSize)
    (he : ∀ k l, (C.enc k l).length = l.length)
    (hd : ∀ k l, (C.dec k l).length = l.length)
    (hinv : ∀ k l, C.dec k (C.enc k l) = l)
    (hsp : C.sparse = true →
      ∀ k m, C.dec k (List.replicate m 0) = List.replicate m 0) :
    (C.run [] ops).1 = (refRun [] ops).1 ∧
      (C.run [] ops).2.length = (refRun [] ops).2.length := by
  have h := run_eq C hB he hd hinv hsp ops [] [] (Inv_nil C hd)
  exact ⟨h.1, h.2.len⟩

theorem xorCipher_enc_length (B k : Nat) (l : List Nat) :
    ((xorCipher B).enc k l).length = l.length := by
  simp [xorCipher]

theorem xorCipher_enc_dec (B k : Nat) (l : List Nat) :
    (xorCipher B).dec k ((xorCipher B).enc k l) = l := by
  simp only [xorCipher, List.map_map]
  rw [show ((fun x => x ^^^ k % 256) ∘ fun x => x ^^^ k % 256) = id by
    funext x
    simp [Nat.xor_assoc]]
  exact List.map_id l

theorem xorCipher_not_sparse (B : Nat) : (xorCipher B).sparse = false := rfl

/-- Witness for C1: the dummy XOR cipher of test_streams.cpp with block
size 3, driven over a concrete mixed sequence of all four operations
(including a write past the end and a shrinking then growing resize),
matches the plain byte array step for step. -/
theorem cryptStream_refines_byte_array_witness :
    ((xorCipher 3).run []
        [StreamOp.write 4 [10, 20, 30], StreamOp.size, StreamOp.read 0 9,
          StreamOp.resize 2, StreamOp.read 0 9, StreamOp.resize 8,
          StreamOp.size, StreamOp.read 1 6, StreamOp.write 0 [1, 2, 3, 4],
          StreamOp.read 0 9]).1 =
      (refRun []
        [StreamOp.write 4 [10, 20, 30], StreamOp.size, StreamOp.read 0 9,
          StreamOp.resize 2, StreamOp.read 0 9, StreamOp.resize 8,
          StreamOp.size, StreamOp.read 1 6, StreamOp.write 0 [1, 2, 3, 4],
          StreamOp.read 0 9]).1 ∧
    ((xorCipher 3).run []
        [StreamOp.write 4 [10, 20, 30], StreamOp.size, StreamOp.read 0 9,
          StreamOp.resize 2, StreamOp.read 0 9, StreamOp.resize 8,
          StreamOp.size, StreamOp.read 1 6, StreamOp.write 0 [1, 2, 3, 4],
          StreamOp.read 0 9]).2.length =
      (refRun []
        [StreamOp.write 4 [10, 20, 30], StreamOp.size, StreamOp.read 0 9,
          StreamOp.resize 2, StreamOp.read 0 9, StreamOp.resize 8,
          StreamOp.size, StreamOp.read 1 6, StreamOp.write 0 [1, 2, 3, 4],
          StreamOp.read 0 9]).2.length :=
  cryptStream_refines_byte_array (xorCipher 3) _ (by decide)
    (fun k l => xorCipher_enc_length 3 k l)
    (fun k l => xorCipher_dec_length 3 k l)
    (fun k l => xorCipher_enc_dec 3 k l)
    (fun h => absurd h (by decide))

/-! ## `HMACStream` (streams.cpp lines 16-142, claim C4)

The wrapper reserves the first 32 bytes of the underlying store for an
HMAC-SHA256 tag over `id || stream[32..]` and shifts all operations by 32.
The HMAC itself is an abstract parameter `hmacF : key → message → tag`. -/

/-- The state of an `HMACStream`: the underlying store and the dirty
flag. -/
structure HSState where
  u : List Nat
  dirty : Bool
  deriving DecidableEq, Repr

/-- The chunked reading loop of `run_mac` (lines 49-62): read 4096 bytes at
a time from offset 32 until a read returns nothing.  Fuel: one unit per
chunk, so the stream length is more than enough. -/
def hsReadAll (u : List Nat) : Nat → Nat → List Nat
  | 0, _ => []
  | fuel + 1, off =>
    let chunk := sbRead u off 4096
    if chunk.length = 0 then []
    else chunk ++ hsReadAll u fuel (off + chunk.length)

/-- The chunked loop concatenates to exactly the stream from `off` on. -/
theorem hsReadAll_eq_drop (u : List Nat) :
    ∀ fuel off, u.length - off ≤ fuel → hsReadAll u fuel off = u.drop off := by
  intro fuel
  induction fuel with
  | zero =>
    intro off h
    have : (u.drop off).length = 0 := by
      rw [List.length_drop]
      omega
    rw [List.eq_nil_of_length_eq_zero this]
    rfl
  | succ f ih =>
    intro off h
    show (if (sbRead u off 4096).length = 0 then []
      else sbRead u off 4096 ++ hsReadAll u f (off + (sbRead u off 4096).length)) =
      u.drop off
    by_cases h0 : (sbRead u off 4096).length = 0
    · rw [if_pos h0]
      rw [length_sbRead] at h0
      have : (u.drop off).length = 0 := by
        rw [List.length_drop]
        omega
      rw [List.eq_nil_of_length_eq_zero this]
    · rw [if_neg h0]
      rw [length_sbRead] at h0 ⊢
      rw [ih (off + min 4096 (u.length - off)) (by omega)]
      apply list_ext_byteAt
      · simp
        omega
      · intro i hi
        simp only [List.length_append, length_sbRead, List.length_drop] at hi
        by_cases h1 : i < min 4096 (u.length - off)
        · rw [byteAt_append_left (by simp; omega), byteAt_sbRead,
            if_pos (by omega), byteAt_drop]
        · rw [byteAt_append_right (by simp; omega), byteAt_drop, byteAt_drop]
          congr 1
          simp
          omega

/-- The bytes the MAC is computed over: `id` then the stream from offset
32 to the end. -/
def hsMacInput (id u : List Nat) : List Nat := id ++ hsReadAll u u.length 32

/-- Construction-time verification of `HMACStream` (lines 65-88): an empty
underlying store passes without verification; a nonempty one shorter than
32 bytes fails (`InvalidHMACStreamException`, "not of enough length"); else
the recomputed HMAC must match the stored first 32 bytes, or the
construction fails ("HMAC mismatch"). -/
def hsOpen (hmacF : List Nat → List Nat → List Nat) (key id : List Nat)
    (u : List Nat) (check : Bool) : Except Err Unit :=
  if !check then .ok ()
  else
    let hm := sbRead u 0 32
    if hm.length = 0 then .ok ()
    else if hm.length ≠ 32 then .error .invalidFormat
    else if hmacF key (hsMacInput id u) = hm then .ok ()
    else .error .invalidHMAC

/-- `HMACStream::read` (lines 124-127). -/
def hsRead (st : HSState) (off len : Nat) : List Nat := sbRead st.u (off + 32) len

/-- `HMACStream::write` (lines 129-133): shift by 32 and mark dirty. -/
def hsWrite (st : HSState) (off : Nat) (input : List Nat) : HSState :=
  ⟨sbWrite st.u (off + 32) input, true⟩

/-- `HMACStream::resize` (lines 135-139). -/
def hsResize (st : HSState) (n : Nat) : HSState := ⟨sbResize st.u (n + 32), true⟩

/-- `HMACStream::size` (lines 116-122): zero when shorter than the tag. -/
def hsSize (st : HSState) : Nat := st.u.length - 32

/-- `HMACStream::flush` (lines 102-114): when dirty, recompute the HMAC
over `id || stream[32..]` and store it in the first 32 bytes. -/
def hsFlush (hmacF : List Nat → List Nat → List Nat) (key id : List Nat)
    (st : HSState) : HSState :=
  if !st.dirty then st
  else ⟨sbWrite st.u 0 (hmacF key (hsMacInput id st.u)), false⟩

@[simp] theorem byteAt_cons_zero (x : Nat) (xs : List Nat) :
    byteAt (x :: xs) 0 = x := by
  simp [byteAt]

@[simp] theorem byteAt_cons_succ (x : Nat) (xs : List Nat) (j : Nat) :
    byteAt (x :: xs) (j + 1) = byteAt xs j := by
  simp [byteAt]

theorem byteAt_set (l : List Nat) (i v j : Nat) :
    byteAt (l.set i v) j = if i = j ∧ j < l.length then v else byteAt l j := by
  induction l generalizing i j with
  | nil => simp [byteAt]
  | cons x xs ih =>
    cases i with
    | zero =>
      cases j with
      | zero => simp
      | succ j => simp
    | succ i =>
      cases j with
      | zero => simp
      | succ j =>
        simp only [List.set_cons_succ, byteAt_cons_succ, ih i j,
          List.length_cons]
        by_cases h : i = j ∧ j < xs.length
        · rw [if_pos h, if_pos (by omega)]
        · rw [if_neg h, if_neg (by omega)]

theorem length_set_eq (l : List Nat) (i v : Nat) : (l.set i v).length = l.length :=
  List.length_set l i v

/-- Let-free restatement of `hsOpen`. -/
theorem hsOpen_def (hmacF : List Nat → List Nat → List Nat) (key id u : List Nat)
    (check : Bool) :
    hsOpen hmacF key id u check =
      if !check then .ok ()
      else if (sbRead u 0 32).length = 0 then .ok ()
      else if (sbRead u 0 32).length ≠ 32 then .error .invalidFormat
      else if hmacF key (hsMacInput id u) = sbRead u 0 32 then .ok ()
      else .error .invalidHMAC := rfl

/-- The HMAC roundtrip state of scenario S1: write `content` at offset 0
of an `HMACStream` over an empty base store, then flush. -/
def hsRoundtripState (hmacF : List Nat → List Nat → List Nat)
    (key id content : List Nat) : HSState :=
  hsFlush hmacF key id (hsWrite ⟨[], false⟩ 0 content)

theorem hsRoundtripState_u (hmacF : List Nat → List Nat → List Nat)
    (key id content : List Nat) (hlen : ∀ k m, (hmacF k m).length = 32) :
    (hsRoundtripState hmacF key id content).u =
      hmacF key (id ++ content) ++ content := by
  have hst1 : (hsWrite ⟨[], false⟩ 0 content).u = List.replicate 32 0 ++ content := by
    show sbWrite [] (0 + 32) content = _
    unfold sbWrite
    simp
  unfold hsRoundtripState hsFlush
  rw [if_neg (by simp [hsWrite])]
  simp only [hst1]
  have hmac1 : hsMacInput id (List.replicate 32 0 ++ content) = id ++ content := by
    unfold hsMacInput
    rw [hsReadAll_eq_drop _ _ _ (by omega)]
    congr 1
  rw [hmac1]
  show sbWrite (List.replicate 32 0 ++ content) 0 (hmacF key (id ++ content)) = _
  unfold sbWrite
  rw [hlen]
  simp

/-- C4: `HMACStream` opening with `check=true` performs no verification
over an empty base store; a nonempty base shorter than 32 bytes fails
InvalidFormat; otherwise it fails InvalidHMAC exactly when the stored
32-byte tag differs from `hmacF(key, id || remaining bytes)`.  After
writing `content` and flushing, reopening succeeds and reads back the same
content and size, while changing any byte of the base stream (to a
different value, and — for a change in the MAC'd body — one that changes
the MAC) makes the next open fail InvalidHMAC. -/
theorem hmacStream_open_roundtrip_tamper
    (hmacF : List Nat → List Nat → List Nat) (key id : List Nat)
    (u w content : List Nat) (i v : Nat)
    (hlen : ∀ k m, (hmacF k m).length = 32)
    (hu1 : 0 < u.length) (hu2 : u.length < 32)
    (hw : 32 ≤ w.length)
    (hi : i < 32 + content.length)
    (hv : v ≠ byteAt (hsRoundtripState hmacF key id content).u i)
    (hcoll : 32 ≤ i →
      hmacF key (id ++ ((hsRoundtripState hmacF key id content).u.set i v).drop 32) ≠
        hmacF key (id ++ content)) :
    hsOpen hmacF key id [] true = .ok () ∧
    hsOpen hmacF key id u true = .error .invalidFormat ∧
    (hsOpen hmacF key id w true = .error .invalidHMAC ↔
      sbRead w 0 32 ≠ hmacF key (hsMacInput id w)) ∧
    hsOpen hmacF key id (hsRoundtripState hmacF key id content).u true = .ok () ∧
    hsSize (hsRoundtripState hmacF key id content) = content.length ∧
    hsRead (hsRoundtripState hmacF key id content) 0 content.length = content ∧
    hsOpen hmacF key id ((hsRoundtripState hmacF key id content).u.set i v) true =
      .error .invalidHMAC := by
  have hu2eq := hsRoundtripState_u hmacF key id content hlen
  have htag : (hmacF key (id ++ content)).length = 32 := hlen _ _
  have hu2len : (hsRoundtripState hmacF key id content).u.length =
      32 + content.length := by
    rw [hu2eq]
    simp [htag]
  have hdrop32 : (hsRoundtripState hmacF key id content).u.drop 32 = content := by
    rw [hu2eq, show (32 : Nat) = (hmacF key (id ++ content)).length from htag.symm,
      List.drop_left]
  have htake32 : sbRead (hsRoundtripState hmacF key id content).u 0 32 =
      hmacF key (id ++ content) := by
    rw [hu2eq]
    show ((hmacF key (id ++ content) ++ content).drop 0).take 32 = _
    rw [List.drop_zero, show (32 : Nat) = (hmacF key (id ++ content)).length from
      htag.symm, List.take_left]
  refine ⟨?_, ?_, ?_, ?_, ?_, ?_, ?_⟩
  · rfl
  · rw [hsOpen_def]
    rw [if_neg (by decide), if_neg (by simp only [length_sbRead]; omega),
      if_pos (by simp only [length_sbRead]; omega)]
  · rw [hsOpen_def]
    rw [if_neg (by decide), if_neg (by simp only [length_sbRead]; omega),
      if_neg (by simp only [length_sbRead]; omega)]
    by_cases heq : hmacF key (hsMacInput id w) = sbRead w 0 32
    · rw [if_pos heq]
      constructor
      · intro h
        exact absurd h (by simp)
      · intro h
        exact absurd heq.symm h
    · rw [if_neg heq]
      constructor
      · intro _
        intro hc
        exact heq hc.symm
      · intro _
        rfl
  · rw [hsOpen_def]
    rw [if_neg (by decide), if_neg (by simp only [length_sbRead, hu2len]; omega),
      if_neg (by simp only [length_sbRead, hu2len]; omega)]
    rw [if_pos]
    unfold hsMacInput
    rw [hsReadAll_eq_drop _ _ _ (by omega), hdrop32, htake32]
  · unfold hsSize
    omega
  · unfold hsRead
    show ((hsRoundtripState hmacF key id content).u.drop (0 + 32)).take _ = _
    rw [Nat.zero_add, hdrop32, List.take_of_length_le (Nat.le_refl _)]
  · rw [hsOpen_def]
    rw [if_neg (by decide),
      if_neg (by simp only [length_sbRead, length_set_eq, hu2len]; omega),
      if_neg (by simp only [length_sbRead, length_set_eq, hu2len]; omega)]
    rw [if_neg]
    unfold hsMacInput
    rw [hsReadAll_eq_drop _ _ _ (by rw [length_set_eq]; omega)]
    rcases Nat.lt_or_ge i 32 with hlt | hge
    · -- the tamper hits the stored tag: the recomputed MAC is unchanged
      -- but the stored tag differs at position i
      have hdropset : ((hsRoundtripState hmacF key id content).u.set i v).drop 32 =
          content := by
        apply list_ext_byteAt
        · simp only [List.length_drop, length_set_eq, hu2len]
          omega
        · intro j _
          rw [byteAt_drop, byteAt_set, if_neg (by omega)]
          conv_rhs => rw [← hdrop32, byteAt_drop]
      rw [hdropset]
      intro hcon
      have hb := congrArg (fun l => byteAt l i) hcon
      simp only at hb
      rw [byteAt_sbRead, if_pos hlt, Nat.zero_add, byteAt_set,
        if_pos ⟨rfl, by omega⟩] at hb
      rw [← htake32] at hb
      rw [byteAt_sbRead, if_pos hlt, Nat.zero_add] at hb
      exact hv hb.symm
    · -- the tamper hits the MAC'd body: the recomputed MAC differs from
      -- the unchanged stored tag
      have htakeset : sbRead ((hsRoundtripState hmacF key id content).u.set i v)
          0 32 = hmacF key (id ++ content) := by
        rw [← htake32]
        apply list_ext_byteAt
        · simp [length_set_eq]
        · intro j hj
          simp only [length_sbRead, length_set_eq] at hj
          rw [byteAt_sbRead, byteAt_sbRead, if_pos (by omega), if_pos (by omega),
            Nat.zero_add, byteAt_set, if_neg (by omega)]
      rw [htakeset]
      exact hcoll hge

/-- A simple stand-in HMAC for the witness: 31 zero bytes then the byte
sum of key and message, always 32 bytes long. -/
def toyHmac (key msg : List Nat) : List Nat :=
  List.replicate 31 0 ++ [(key.sum + msg.sum) % 256]

theorem toyHmac_length (k m : List Nat) : (toyHmac k m).length = 32 := by
  simp [toyHmac]

/-- Witness for C4: scenario S1 with `key = 0xFF × 32`, `id = 0xEE × 32`,
content "hello", the toy HMAC, a three-byte short store, a 32-byte store
for the mismatch criterion, and a tamper at position 34 (inside the MAC'd
body). -/
theorem hmacStream_open_roundtrip_tamper_witness :
    hsOpen toyHmac (List.replicate 32 255) (List.replicate 32 238) [] true =
      .ok () ∧
    hsOpen toyHmac (List.replicate 32 255) (List.replicate 32 238) [1, 2, 3]
      true = .error .invalidFormat ∧
    (hsOpen toyHmac (List.replicate 32 255) (List.replicate 32 238)
        (List.replicate 32 7) true = .error .invalidHMAC ↔
      sbRead (List.replicate 32 7) 0 32 ≠
        toyHmac (List.replicate 32 255)
          (hsMacInput (List.replicate 32 238) (List.replicate 32 7))) ∧
    hsOpen toyHmac (List.replicate 32 255) (List.replicate 32 238)
      (hsRoundtripState toyHmac (List.replicate 32 255) (List.replicate 32 238)
        [104, 101, 108, 108, 111]).u true = .ok () ∧
    hsSize (hsRoundtripState toyHmac (List.replicate 32 255)
      (List.replicate 32 238) [104, 101, 108, 108, 111]) = 5 ∧
    hsRead (hsRoundtripState toyHmac (List.replicate 32 255)
      (List.replicate 32 238) [104, 101, 108, 108, 111]) 0 5 =
      [104, 101, 108, 108, 111] ∧
    hsOpen toyHmac (List.replicate 32 255) (List.replicate 32 238)
      ((hsRoundtripState toyHmac (List.replicate 32 255) (List.replicate 32 238)
        [104, 101, 108, 108, 111]).u.set 34 9) true = .error .invalidHMAC := by
  have h := hmacStream_open_roundtrip_tamper toyHmac (List.replicate 32 255)
    (List.replicate 32 238) [1, 2, 3] (List.replicate 32 7)
    [104, 101, 108, 108, 111] 34 9
    (fun k m => toyHmac_length k m)
    (by decide) (by decide) (by decide) (by decide)
    (by decide)
    (fun _ => by decide)
  have hlen5 : ([104, 101, 108, 108, 111] : List Nat).length = 5 := rfl
  rw [hlen5] at h
  exact h

/-! ## `AESGCMCryptStream` (streams.cpp lines 305-536)

The concrete `CryptStream`: AES-GCM per block, with the per-block IV and
tag kept in a companion meta stream that is itself an `HMACStream`.
AES-GCM and the random generator are abstract parameters; the stream's key
and id are constant per stream, so they are folded into the two AEAD
functions. -/

/-- Parameters of an `AESGCMCryptStream`: sizes, the check flag, the
sparsity of the two underlying stores, the AEAD pair (key and id folded
in), the random stream and the retry fuel for IV resampling. -/
structure AGParams where
  blockSize : Nat
  ivSize : Nat
  check : Bool
  dataSparse : Bool
  metaSparse : Bool
  gcmEnc : List Nat → List Nat → List Nat × List Nat
  gcmDec : List Nat → List Nat → List Nat → List Nat × Bool
  rng : Nat → List Nat
  ivTries : Nat

/-- Force a byte buffer to an exact size (C buffers have their size fixed
by the declaration). -/
def padTo (n : Nat) (l : List Nat) : List Nat :=
  l.take n ++ List.replicate (n - l.length) 0

@[simp] theorem padTo_length (n : Nat) (l : List Nat) : (padTo n l).length = n := by
  simp [padTo]
  omega

/-- `get_mac_size()` (line 312): the AES-GCM tag is 16 bytes. -/
def AGParams.macSize (_P : AGParams) : Nat := 16

/-- `get_header_size()` (line 316): 32 plaintext header bytes. -/
def AGParams.headerSize (_P : AGParams) : Nat := 32

/-- `get_meta_size()` (line 314): one IV plus one tag. -/
def AGParams.metaSize (P : AGParams) : Nat := P.ivSize + 16

/-- `get_encrypted_header_size()` (lines 318-321). -/
def AGParams.encHeaderSize (P : AGParams) : Nat := 32 + P.ivSize + 16

/-- `meta_position_for_iv(block_num)` (lines 333-336). -/
def AGParams.metaPos (P : AGParams) (k : Nat) : Nat :=
  P.encHeaderSize + P.metaSize * k

/-- `max_block_number = 1 << 30` (line 323). -/
def maxBlockNumber : Nat := 2 ^ 30

/-- `check_block_number` (lines 338-343): strictly exceeding the maximum
is a hard error. -/
def checkBlockNumber (P : AGParams) (k : Nat) : Except Err Unit :=
  if k > maxBlockNumber then
    .error (.streamTooLong (maxBlockNumber * P.blockSize) (k * P.blockSize))
  else .ok ()

/-- `is_all_zeros` over a byte buffer. -/
def allZeros (l : List Nat) : Bool := l.all (· = 0)

/-- Mutable state of an `AESGCMCryptStream`: the data store, the meta
`HMACStream`, and the position in the random stream. -/
structure AGState where
  data : List Nat
  meta : HSState
  rngCtr : Nat
  deriving DecidableEq, Repr

/-- The do/while IV sampling loop of `encrypt` (lines 380-383): draw until
the IV is not all zeros (all-zero IVs are reserved as sparse markers).
Returns the IV and the next counter, or `none` when the fuel runs out
(modelling the C++ loop never terminating). -/
def sampleIV (P : AGParams) : Nat → Nat → Option (List Nat × Nat)
  | 0, _ => none
  | fuel + 1, c =>
    let iv := padTo P.ivSize (P.rng c)
    if allZeros iv then sampleIV P fuel (c + 1) else some (iv, c + 1)

/-- `AESGCMCryptStream::encrypt` (lines 367-397): returns the ciphertext
and the updated state (meta slot written, random counter advanced). -/
def agEncrypt (P : AGParams) (k : Nat) (input : List Nat) (st : AGState) :
    Except Err (List Nat × AGState) :=
  if input.length = 0 then .ok ([], st)
  else
    match checkBlockNumber P k with
    | .error e => .error e
    | .ok () =>
      match sampleIV P P.ivTries st.rngCtr with
      | none => .error .randomExhausted
      | some (iv, ctr2) =>
        let ct := padTo input.length (P.gcmEnc iv input).1
        let mac := padTo 16 (P.gcmEnc iv input).2
        .ok (ct,
          { st with
            rngCtr := ctr2
            meta := hsWrite st.meta (P.metaPos k) (iv ++ mac) })

/-- `AESGCMCryptStream::decrypt` (lines 399-434): look up the block's
IV and tag; an all-zero IV is a sparse marker yielding zeros; a tag
mismatch raises `MessageVerification` with the byte offset `k·B` when
`check` is on, and is ignored otherwise. -/
def agDecrypt (P : AGParams) (k : Nat) (input : List Nat) (st : AGState) :
    Except Err (List Nat) :=
  if input.length = 0 then .ok []
  else
    match checkBlockNumber P k with
    | .error e => .error e
    | .ok () =>
      let buf := hsRead st.meta (P.metaPos k) P.metaSize
      if buf.length ≠ P.metaSize then .error .corruptedMetaData
      else
        let iv := buf.take P.ivSize
        let mac := buf.drop P.ivSize
        if allZeros iv then .ok (List.replicate input.length 0)
        else
          let pt := padTo input.length (P.gcmDec iv input mac).1
          if P.check ∧ ¬ (P.gcmDec iv input mac).2 then
            .error (.messageVerification (k * P.blockSize))
          else .ok pt

/-- `CryptStream::read_block` instantiated with the AES-GCM cipher. -/
def agReadBlock (P : AGParams) (st : AGState) (k : Nat) : Except Err (List Nat) :=
  let raw := sbRead st.data (k * P.blockSize) P.blockSize
  if raw.length = 0 then .ok [] else agDecrypt P k raw st

/-- `CryptStream::write_block` instantiated with the AES-GCM cipher. -/
def agWriteBlock (P : AGParams) (k : Nat) (input : List Nat) (st : AGState) :
    Except Err AGState :=
  match agEncrypt P k input st with
  | .error e => .error e
  | .ok (ct, st2) =>
    .ok { st2 with data := sbWrite st2.data (k * P.blockSize) ct }

/-- `CryptStream::read_block(k, out, begin, end)` instantiated. -/
def agReadBlockRange (P : AGParams) (st : AGState) (k a b : Nat) :
    Except Err (List Nat) :=
  if a = 0 ∧ b = P.blockSize then agReadBlock P st k
  else if b ≤ a then .ok []
  else
    match agReadBlock P st k with
    | .error e => .error e
    | .ok blk =>
      if blk.length ≤ a then .ok []
      else .ok ((blk.drop a).take (min b blk.length - a))

/-- `CryptStream::read_then_write_block` instantiated. -/
def agReadThenWriteBlock (P : AGParams) (st : AGState) (k a b : Nat)
    (input : List Nat) : Except Err AGState :=
  if a = 0 ∧ b = P.blockSize then agWriteBlock P k (input.take P.blockSize) st
  else if b ≤ a then .ok st
  else
    match agReadBlock P st k with
    | .error e => .error e
    | .ok blk =>
      let buf := blk ++ List.replicate (P.blockSize - blk.length) 0
      let patched := buf.take a ++ input.take (b - a) ++ buf.drop b
      agWriteBlock P k (patched.take (max blk.length b)) st

/-- The `CryptStream::read` loop instantiated (fuel as in `Cipher.readGo`). -/
def agReadGo (P : AGParams) : Nat → AGState → Nat → Nat → Except Err (List Nat)
  | 0, _, _, _ => .ok []
  | fuel + 1, st, off, len =>
    if len = 0 then .ok []
    else
      let k := off / P.blockSize
      let start := k * P.blockSize
      let a := off - start
      let b := min P.blockSize (off + len - start)
      match agReadBlockRange P st k a b with
      | .error e => .error e
      | .ok chunk =>
        if chunk.length < b - a then .ok chunk
        else
          match agReadGo P fuel st (off + chunk.length) (len - chunk.length) with
          | .error e => .error e
          | .ok rest => .ok (chunk ++ rest)

/-- `CryptStream::read` instantiated. -/
def agRead (P : AGParams) (st : AGState) (off len : Nat) : Except Err (List Nat) :=
  agReadGo P len st off len

/-- The `CryptStream::unchecked_write` loop instantiated. -/
def agWriteGo (P : AGParams) : Nat → AGState → Nat → List Nat → Except Err AGState
  | 0, st, _, _ => .ok st
  | fuel + 1, st, off, input =>
    if input.length = 0 then .ok st
    else
      let k := off / P.blockSize
      let start := k * P.blockSize
      let a := off - start
      let b := min P.blockSize (off + input.length - start)
      match agReadThenWriteBlock P st k a b input with
      | .error e => .error e
      | .ok st2 => agWriteGo P fuel st2 (off + (b - a)) (input.drop (b - a))

/-- `CryptStream::unchecked_write` instantiated. -/
def agUncheckedWrite (P : AGParams) (st : AGState) (off : Nat) (input : List Nat) :
    Except Err AGState :=
  agWriteGo P input.length st off input

/-- The `CryptStream::zero_fill` loop instantiated. -/
def agZeroFillGo (P : AGParams) : Nat → AGState → Nat → Nat → Except Err AGState
  | 0, st, _, _ => .ok st
  | fuel + 1, st, off, finish =>
    if off < finish then
      let k := off / P.blockSize
      let start := k * P.blockSize
      let a := off - start
      let b := min P.blockSize (finish - start)
      match agReadThenWriteBlock P st k a b (List.replicate (b - a) 0) with
      | .error e => .error e
      | .ok st2 => agZeroFillGo P fuel st2 (off + (b - a)) finish
    else .ok st

/-- `CryptStream::zero_fill` instantiated. -/
def agZeroFill (P : AGParams) (st : AGState) (off finish : Nat) :
    Except Err AGState :=
  agZeroFillGo P (finish - off) st off finish

/-- Modelled from the spec: `CryptStream::size()` is declared in streams.h,
which is not among the sources; the logical size is the data store's size
(ciphertext length equals plaintext length, spec section 4.4). -/
def agSize (_P : AGParams) (st : AGState) : Nat := st.data.length

/-- `AESGCMCryptStream::is_sparse` (lines 437-440): both stores must be
sparse. -/
def AGParams.isSparse (P : AGParams) : Bool := P.dataSparse && P.metaSparse

/-- `CryptStream::resize` (lines 272-303) with the AES-GCM cipher and
`is_sparse` dispatched virtually. -/
def agCryptResize (P : AGParams) (st : AGState) (n : Nat) : Except Err AGState :=
  let current := st.data.length
  if n = current then .ok st
  else if n < current then
    let r := n % P.blockSize
    let k := n / P.blockSize
    let step : Except Err AGState :=
      if 0 < r then
        match agReadBlock P st k with
        | .error e => .error e
        | .ok blk =>
          let buf := blk ++ List.replicate (P.blockSize - blk.length) 0
          agWriteBlock P k (buf.take r) st
      else .ok st
    match step with
    | .error e => .error e
    | .ok st2 => .ok { st2 with data := sbResize st2.data n }
  else
    let oldK := current / P.blockSize
    let newK := n / P.blockSize
    let step : Except Err AGState :=
      if ¬ P.isSparse ∨ oldK = newK then agZeroFill P st current n
      else
        match agZeroFill P st current (oldK * P.blockSize + P.blockSize) with
        | .error e => .error e
        | .ok st1 => agZeroFill P st1 (newK * P.blockSize) n
    match step with
    | .error e => .error e
    | .ok st2 => .ok { st2 with data := sbResize st2.data n }

/-- `AESGCMCryptStream::resize` (lines 442-447): resize the payload, then
cut the meta stream to exactly one slot per block. -/
def agResize (P : AGParams) (st : AGState) (n : Nat) : Except Err AGState :=
  match agCryptResize P st n with
  | .error e => .error e
  | .ok st2 =>
    let numBlocks := (n + P.blockSize - 1) / P.blockSize
    .ok { st2 with meta := hsResize st2.meta (P.metaPos numBlocks) }

/-- `CryptStream::write` (lines 231-238) with the virtual `resize` of
`AESGCMCryptStream`. -/
def agWrite (P : AGParams) (st : AGState) (off : Nat) (input : List Nat) :
    Except Err AGState :=
  if agSize P st < off then
    match agResize P st off with
    | .error e => .error e
    | .ok st2 => agUncheckedWrite P st2 off input
  else agUncheckedWrite P st off input

/-- `AESGCMCryptStream::unchecked_read_header` (lines 456-480): the header
record is read and decrypted, but the AEAD success flag is discarded — the
decrypted bytes are returned without verification. -/
def agUncheckedReadHeader (P : AGParams) (st : AGState) :
    Except Err (Nat × List Nat) :=
  let buf := hsRead st.meta 0 P.encHeaderSize
  if buf.length = 0 then .ok (0, [])
  else if buf.length ≠ P.encHeaderSize then .error .corruptedMetaData
  else
    let iv := buf.take P.ivSize
    let mac := (buf.drop P.ivSize).take 16
    let ct := buf.drop (P.ivSize + 16)
    -- the return value of aes_gcm_decrypt is ignored by the source here
    .ok (P.encHeaderSize, padTo 32 (P.gcmDec iv ct mac).1)

/-- `AESGCMCryptStream::read_header` (lines 505-516). -/
def agReadHeader (P : AGParams) (st : AGState) (len : Nat) :
    Except Err (Bool × List Nat) :=
  if len > 32 then .error .invalidArgument
  else if len = 32 then
    match agUncheckedReadHeader P st with
    | .error e => .error e
    | .ok (rc, out) => .ok (rc != 0, out)
  else
    match agUncheckedReadHeader P st with
    | .error e => .error e
    | .ok (rc, out) => .ok (rc != 0, out.take (min len rc))

/-- Reading back the prefix of a just-written buffer. -/
theorem sbRead_write_inside {s : List Nat} (off n : Nat) (w : List Nat)
    (h : n ≤ w.length) :
    sbRead (sbWrite s off w) off n = w.take n := by
  apply list_ext_byteAt
  · simp
    omega
  · intro i hi
    simp only [length_sbRead, length_sbWrite] at hi
    rw [byteAt_sbRead, if_pos (by omega), byteAt_sbWrite, if_pos (by omega),
      byteAt_take, if_pos (by omega)]
    congr 1
    omega

/-- A successful IV sample is never all zeros and has the configured
size. -/
theorem sampleIV_some (P : AGParams) :
    ∀ fuel c iv c2, sampleIV P fuel c = some (iv, c2) →
      allZeros iv = false ∧ iv.length = P.ivSize := by
  intro fuel
  induction fuel with
  | zero =>
    intro c iv c2 h
    exact absurd h (by simp [sampleIV])
  | succ f ih =>
    intro c iv c2 h
    unfold sampleIV at h
    by_cases hz : allZeros (padTo P.ivSize (P.rng c))
    · rw [if_pos hz] at h
      exact ih (c + 1) iv c2 h
    · rw [if_neg hz] at h
      simp only [Option.some.injEq, Prod.mk.injEq] at h
      obtain ⟨hiv, _⟩ := h
      subst hiv
      exact ⟨by simp [hz], padTo_length _ _⟩

/-- The shape of `decrypt` for a block number within range and a nonzero
length. -/
theorem agDecrypt_shape (P : AGParams) (k : Nat) (input : List Nat)
    (st : AGState) (hk : k ≤ maxBlockNumber) (hlen : 0 < input.length) :
    agDecrypt P k input st =
      if (hsRead st.meta (P.metaPos k) P.metaSize).length ≠ P.metaSize then
        .error .corruptedMetaData
      else if allZeros ((hsRead st.meta (P.metaPos k) P.metaSize).take P.ivSize) then
        .ok (List.replicate input.length 0)
      else if P.check ∧
          ¬ (P.gcmDec ((hsRead st.meta (P.metaPos k) P.metaSize).take P.ivSize)
            input ((hsRead st.meta (P.metaPos k) P.metaSize).drop P.ivSize)).2 then
        .error (.messageVerification (k * P.blockSize))
      else
        .ok (padTo input.length
          (P.gcmDec ((hsRead st.meta (P.metaPos k) P.metaSize).take P.ivSize)
            input ((hsRead st.meta (P.metaPos k) P.metaSize).drop P.ivSize)).1) := by
  unfold agDecrypt
  rw [if_neg (by omega)]
  have hcbn : checkBlockNumber P k = .ok () := by
    unfold checkBlockNumber
    rw [if_neg (by omega)]
  rw [hcbn]

/-- C2 (amended): with `check` enabled, an AES-GCM tag mismatch on data
block `k` raises `MessageVerification` carrying the byte offset `k·B`;
for the header region, however, `unchecked_read_header` discards the AEAD
verdict, so reading a header whose stored tag does not authenticate the
stored ciphertext succeeds and returns the unauthenticated plaintext. -/
theorem tag_mismatch_data_block_header_unchecked (P : AGParams) (k : Nat)
    (input : List Nat) (st st2 : AGState)
    (hcheck : P.check = true)
    (hlen : 0 < input.length)
    (hk : k ≤ maxBlockNumber)
    (hmeta : (hsRead st.meta (P.metaPos k) P.metaSize).length = P.metaSize)
    (hiv : allZeros ((hsRead st.meta (P.metaPos k) P.metaSize).take P.ivSize) = false)
    (hfail : (P.gcmDec ((hsRead st.meta (P.metaPos k) P.metaSize).take P.ivSize)
        input ((hsRead st.meta (P.metaPos k) P.metaSize).drop P.ivSize)).2 = false)
    (hh : (hsRead st2.meta 0 P.encHeaderSize).length = P.encHeaderSize) :
    agDecrypt P k input st = .error (.messageVerification (k * P.blockSize)) ∧
    agReadHeader P st2 32 =
      .ok (true,
        padTo 32
          (P.gcmDec ((hsRead st2.meta 0 P.encHeaderSize).take P.ivSize)
            ((hsRead st2.meta 0 P.encHeaderSize).drop (P.ivSize + 16))
            (((hsRead st2.meta 0 P.encHeaderSize).drop P.ivSize).take 16)).1) := by
  constructor
  · rw [agDecrypt_shape P k input st hk hlen]
    rw [if_neg (by omega), if_neg (by rw [hiv]; exact Bool.false_ne_true),
      if_pos (by rw [hcheck, hfail]; exact ⟨rfl, by simp⟩)]
  · have hunc : agUncheckedReadHeader P st2 =
        .ok (P.encHeaderSize,
          padTo 32
            (P.gcmDec ((hsRead st2.meta 0 P.encHeaderSize).take P.ivSize)
              ((hsRead st2.meta 0 P.encHeaderSize).drop (P.ivSize + 16))
              (((hsRead st2.meta 0 P.encHeaderSize).drop P.ivSize).take 16)).1) := by
      unfold agUncheckedReadHeader
      rw [if_neg (by unfold AGParams.encHeaderSize at hh ⊢; omega),
        if_neg (by omega)]
    unfold agReadHeader
    rw [if_neg (by omega), if_pos rfl, hunc]
    have h32 : (P.encHeaderSize != 0) = true := by
      unfold AGParams.encHeaderSize
      simp
    dsimp only
    rw [h32]

/-- The toy AEAD instance used for concrete scenarios: block size 4,
IV size 2, "encryption" is the identity and the tag is sixteen `1` bytes;
decryption accepts exactly that tag.  The random stream always yields the
(nonzero) IV `[1, 1]`.  Both underlying stores are sparse and `check` is
on. -/
def toyAG : AGParams where
  blockSize := 4
  ivSize := 2
  check := true
  dataSparse := true
  metaSparse := true
  gcmEnc := fun _iv pt => (pt, List.replicate 16 1)
  gcmDec := fun _iv ct mac => (ct, mac == List.replicate 16 1)
  rng := fun _ => [1, 1]
  ivTries := 2

/-- A fresh, empty `AESGCMCryptStream` state. -/
def agEmpty : AGState := ⟨[], ⟨[], false⟩, 0⟩

/-- Witness for C2: a meta stream of `5` bytes has a full-length slot 0
whose IV `[5, 5]` is not zero and whose tag `5 × 16` is rejected by the toy
AEAD, so decrypting block 0 (4 bytes of data) fails `MessageVerification`
at offset 0, while the header read returns the unauthenticated bytes. -/
theorem tag_mismatch_data_block_header_unchecked_witness :
    agDecrypt toyAG 0 [8, 8, 8, 8] ⟨[], ⟨List.replicate 120 5, false⟩, 0⟩ =
      .error (.messageVerification (0 * toyAG.blockSize)) ∧
    agReadHeader toyAG ⟨[], ⟨List.replicate 120 5, false⟩, 0⟩ 32 =
      .ok (true,
        padTo 32
          (toyAG.gcmDec
            ((hsRead (⟨List.replicate 120 5, false⟩ : HSState) 0
              toyAG.encHeaderSize).take toyAG.ivSize)
            ((hsRead (⟨List.replicate 120 5, false⟩ : HSState) 0
              toyAG.encHeaderSize).drop (toyAG.ivSize + 16))
            (((hsRead (⟨List.replicate 120 5, false⟩ : HSState) 0
              toyAG.encHeaderSize).drop toyAG.ivSize).take 16)).1) :=
  tag_mismatch_data_block_header_unchecked toyAG 0 [8, 8, 8, 8]
    ⟨[], ⟨List.replicate 120 5, false⟩, 0⟩ ⟨[], ⟨List.replicate 120 5, false⟩, 0⟩
    (by decide) (by decide) (by decide) (by decide) (by decide) (by decide)
    (by decide)

/-- Counterexample for C2 as stated: the header region of this meta stream
holds a tag the AEAD rejects, yet `read_header` does not fail
`MessageVerification` — it succeeds and hands back the unauthenticated
plaintext. -/
theorem header_no_verification_counterexample :
    agReadHeader toyAG ⟨[], ⟨List.replicate 120 5, false⟩, 0⟩ 32 =
      .ok (true, List.replicate 32 5) ∧
    (toyAG.gcmDec (List.replicate 2 5) (List.replicate 32 5)
      (List.replicate 16 5)).2 = false := by
  constructor
  · rfl
  · rfl

/-- The sparse-write scenario S4 on the toy instance: start empty, write
one byte at offset `10·B`. -/
def sparseWriteResult : Except Err AGState :=
  agWrite toyAG agEmpty (10 * toyAG.blockSize) [9]

set_option maxRecDepth 1000000 in
/-- Counterexample for C3 as stated: after the sparse write, the meta slot
of block 0 is NOT an all-zero sparse marker — the resize path zero-fills
`[0, B)` through `read_then_write_block` even when the old size is 0, so
block 0 is encrypted with a real IV. -/
theorem sparse_write_slot0_counterexample :
    Except.map (fun st => allZeros (hsRead st.meta (toyAG.metaPos 0) toyAG.ivSize))
      sparseWriteResult = .ok false := by
  rfl

set_option maxRecDepth 1000000 in
/-- C3 (amended): starting from an empty `AESGCMCryptStream` over sparse
stores, `write(in, off = 10·B, len = 1)` yields `size() = 10·B + 1` and
`read(out, 0, 10·B)` returns `10·B` zero bytes; the meta stream then
contains a real IV+tag record for block 0 (encrypted zeros, written by the
resize zero-fill), all-zero sparse markers for blocks 1 through 9, and a
real IV+tag record for block 10. -/
theorem sparse_write_scenario :
    Except.map (agSize toyAG) sparseWriteResult = .ok (10 * toyAG.blockSize + 1) ∧
    Except.bind sparseWriteResult
      (fun st => agRead toyAG st 0 (10 * toyAG.blockSize)) =
      .ok (List.replicate (10 * toyAG.blockSize) 0) ∧
    Except.map (fun st => allZeros (hsRead st.meta (toyAG.metaPos 0) toyAG.ivSize))
      sparseWriteResult = .ok false ∧
    Except.map (fun st => (hsRead st.meta (toyAG.metaPos 0) toyAG.metaSize).length)
      sparseWriteResult = .ok toyAG.metaSize ∧
    Except.map
      (fun st => (List.range 9).all
        (fun j => allZeros (hsRead st.meta (toyAG.metaPos (j + 1)) toyAG.metaSize)))
      sparseWriteResult = .ok true ∧
    Except.map (fun st => allZeros (hsRead st.meta (toyAG.metaPos 10) toyAG.ivSize))
      sparseWriteResult = .ok false ∧
    Except.map (fun st => (hsRead st.meta (toyAG.metaPos 10) toyAG.metaSize).length)
      sparseWriteResult = .ok toyAG.metaSize := by
  refine ⟨rfl, rfl, rfl, rfl, rfl, rfl, rfl⟩

/-- Recognizer for the `StreamTooLong` error. -/
def isStreamTooLong {α : Type} : Except Err α → Bool
  | .error (.streamTooLong _ _) => true
  | _ => false

/-- The shape of `encrypt` for a block number within range and a nonzero
length. -/
theorem agEncrypt_shape (P : AGParams) (k : Nat) (input : List Nat)
    (st : AGState) (hk : k ≤ maxBlockNumber) (hlen : 0 < input.length) :
    agEncrypt P k input st =
      match sampleIV P P.ivTries st.rngCtr with
      | none => .error .randomExhausted
      | some (iv, ctr2) =>
        .ok (padTo input.length (P.gcmEnc iv input).1,
          { st with
            rngCtr := ctr2
            meta := hsWrite st.meta (P.metaPos k)
              (iv ++ padTo 16 (P.gcmEnc iv input).2) }) := by
  unfold agEncrypt
  rw [if_neg (by omega)]
  have hcbn : checkBlockNumber P k = .ok () := by
    unfold checkBlockNumber
    rw [if_neg (by omega)]
  rw [hcbn]

/-- C6 (amended): a block number strictly greater than `2^30` is a hard
`StreamTooLong` error for both `encrypt` and `decrypt`, while block number
`2^30` itself is still accepted — so a file holds at most `2^30 + 1`
blocks (numbers 0 through `2^30`), not `2^30`. -/
theorem blockNumber_limit (P : AGParams) (k1 k2 : Nat) (input : List Nat)
    (st : AGState)
    (hlen : 0 < input.length)
    (hk1 : maxBlockNumber < k1) (hk2 : k2 ≤ maxBlockNumber) :
    agEncrypt P k1 input st =
      .error (.streamTooLong (maxBlockNumber * P.blockSize) (k1 * P.blockSize)) ∧
    agDecrypt P k1 input st =
      .error (.streamTooLong (maxBlockNumber * P.blockSize) (k1 * P.blockSize)) ∧
    isStreamTooLong (agEncrypt P k2 input st) = false ∧
    isStreamTooLong (agDecrypt P k2 input st) = false ∧
    maxBlockNumber = 2 ^ 30 := by
  have hcbn1 : checkBlockNumber P k1 =
      .error (.streamTooLong (maxBlockNumber * P.blockSize) (k1 * P.blockSize)) := by
    unfold checkBlockNumber
    rw [if_pos (by omega)]
  refine ⟨?_, ?_, ?_, ?_, rfl⟩
  · unfold agEncrypt
    rw [if_neg (by omega), hcbn1]
  · unfold agDecrypt
    rw [if_neg (by omega), hcbn1]
  · rw [agEncrypt_shape P k2 input st hk2 hlen]
    rcases hs : sampleIV P P.ivTries st.rngCtr with _ | ⟨iv, c2⟩
    · rfl
    · rfl
  · rw [agDecrypt_shape P k2 input st hk2 hlen]
    by_cases h1 : (hsRead st.meta (P.metaPos k2) P.metaSize).length ≠ P.metaSize
    · rw [if_pos h1]
      rfl
    · rw [if_neg h1]
      by_cases h2 : allZeros ((hsRead st.meta (P.metaPos k2) P.metaSize).take P.ivSize)
      · rw [if_pos h2]
        rfl
      · rw [if_neg h2]
        by_cases h3 : P.check ∧
            ¬ (P.gcmDec ((hsRead st.meta (P.metaPos k2) P.metaSize).take P.ivSize)
              input ((hsRead st.meta (P.metaPos k2) P.metaSize).drop P.ivSize)).2
        · rw [if_pos h3]
          rfl
        · rw [if_neg h3]
          rfl

/-- Counterexample for C6 as stated ("a file holds at most `2^30`
blocks"): block number `2^30` — the `2^30 + 1`-st block — passes
`check_block_number` without error. -/
theorem blockNumber_boundary_counterexample :
    checkBlockNumber toyAG (2 ^ 30) = .ok () ∧ maxBlockNumber = 2 ^ 30 := by
  constructor
  · rfl
  · rfl

/-- Witness for C6: on the toy instance, block `2^30 + 1` is rejected with
`StreamTooLong` on both paths and block `2^30` is accepted. -/
theorem blockNumber_limit_witness :
    agEncrypt toyAG (2 ^ 30 + 1) [5] agEmpty =
      .error (.streamTooLong (maxBlockNumber * toyAG.blockSize)
        ((2 ^ 30 + 1) * toyAG.blockSize)) ∧
    agDecrypt toyAG (2 ^ 30 + 1) [5] agEmpty =
      .error (.streamTooLong (maxBlockNumber * toyAG.blockSize)
        ((2 ^ 30 + 1) * toyAG.blockSize)) ∧
    isStreamTooLong (agEncrypt toyAG (2 ^ 30) [5] agEmpty) = false ∧
    isStreamTooLong (agDecrypt toyAG (2 ^ 30) [5] agEmpty) = false ∧
    maxBlockNumber = 2 ^ 30 :=
  blockNumber_limit toyAG (2 ^ 30 + 1) (2 ^ 30) [5] agEmpty (by decide)
    (by norm_num [maxBlockNumber]) (by norm_num [maxBlockNumber])

/-- C7: when `encrypt` succeeds on a nonzero-length block write, the IV
stored in the block's meta slot is not all zeros — sampling repeats until a
nonzero IV is drawn, so an all-zero IV slot can only denote a never-written
sparse block. -/
theorem encrypt_no_zero_iv (P : AGParams) (k : Nat) (input : List Nat)
    (st : AGState) (ct : List Nat) (st2 : AGState)
    (hok : agEncrypt P k input st = .ok (ct, st2))
    (hlen : 0 < input.length) :
    allZeros (hsRead st2.meta (P.metaPos k) P.ivSize) = false := by
  have hk : k ≤ maxBlockNumber := by
    by_contra hk
    unfold agEncrypt at hok
    rw [if_neg (by omega)] at hok
    have hcbn1 : checkBlockNumber P k =
        .error (.streamTooLong (maxBlockNumber * P.blockSize) (k * P.blockSize)) := by
      unfold checkBlockNumber
      rw [if_pos (by omega)]
    rw [hcbn1] at hok
    exact absurd hok (by simp)
  rw [agEncrypt_shape P k input st hk hlen] at hok
  rcases hs : sampleIV P P.ivTries st.rngCtr with _ | ⟨iv, c2⟩
  · rw [hs] at hok
    exact absurd hok (by simp)
  · rw [hs] at hok
    simp only [Except.ok.injEq, Prod.mk.injEq] at hok
    obtain ⟨-, hst2⟩ := hok
    obtain ⟨hznz, hivlen⟩ := sampleIV_some P P.ivTries st.rngCtr iv c2 hs
    rw [← hst2]
    show allZeros (sbRead
      (sbWrite st.meta.u (P.metaPos k + 32) (iv ++ padTo 16 (P.gcmEnc iv input).2))
      (P.metaPos k + 32) P.ivSize) = false
    rw [sbRead_write_inside _ _ _ (by simp; omega)]
    rw [show P.ivSize = iv.length from hivlen.symm,
      List.take_left, hznz]

/-- Witness for C7: a concrete successful single-byte encrypt on the toy
instance stores the nonzero IV `[1, 1]` in slot 0. -/
theorem encrypt_no_zero_iv_witness :
    allZeros (hsRead
      (⟨sbWrite ([] : List Nat) (toyAG.metaPos 0 + 32)
        ([1, 1] ++ List.replicate 16 1), true⟩ : HSState)
      (toyAG.metaPos 0) toyAG.ivSize) = false :=
  encrypt_no_zero_iv toyAG 0 [5] agEmpty [5]
    ⟨[], ⟨sbWrite ([] : List Nat) (toyAG.metaPos 0 + 32)
      ([1, 1] ++ List.replicate 16 1), true⟩, 1⟩
    (by rfl) (by decide)

/-- C10: reading the header of a stream whose meta header region was never
written is not an error: `read_header` returns `false` (and for a short
requested length copies nothing) when the underlying read of the encrypted
header region yields 0 bytes; `CorruptedMetaData` is raised only when that
read is nonzero but shorter than the full encrypted header size. -/
theorem readHeader_missing_or_short (P : AGParams) (st1 st2 : AGState) (len : Nat)
    (h1 : (hsRead st1.meta 0 P.encHeaderSize).length = 0)
    (h2a : 0 < (hsRead st2.meta 0 P.encHeaderSize).length)
    (h2b : (hsRead st2.meta 0 P.encHeaderSize).length < P.encHeaderSize)
    (hlen : len ≤ 32) :
    agReadHeader P st1 32 = .ok (false, []) ∧
    agReadHeader P st1 len = .ok (false, []) ∧
    agReadHeader P st2 len = .error .corruptedMetaData := by
  have hu1 : agUncheckedReadHeader P st1 = .ok (0, []) := by
    unfold agUncheckedReadHeader
    rw [if_pos h1]
  have hu2 : agUncheckedReadHeader P st2 = .error .corruptedMetaData := by
    unfold agUncheckedReadHeader
    rw [if_neg (by omega), if_pos (by omega)]
  refine ⟨?_, ?_, ?_⟩
  · unfold agReadHeader
    rw [if_neg (by omega), if_pos rfl, hu1]
    rfl
  · unfold agReadHeader
    rw [if_neg (by omega)]
    by_cases h32 : len = 32
    · rw [if_pos h32, hu1]
      rfl
    · rw [if_neg h32, hu1]
      dsimp only
      rw [show min len 0 = 0 by omega, List.take_zero]
      rfl
  · unfold agReadHeader
    rw [if_neg (by omega)]
    by_cases h32 : len = 32
    · rw [if_pos h32, hu2]
    · rw [if_neg h32, hu2]

/-- Witness for C10: a fresh stream with an empty meta store reads a
missing header as `false`; a meta store with only 8 bytes past its HMAC
region fails `CorruptedMetaData`. -/
theorem readHeader_missing_or_short_witness :
    agReadHeader toyAG agEmpty 32 = .ok (false, []) ∧
    agReadHeader toyAG agEmpty 10 = .ok (false, []) ∧
    agReadHeader toyAG ⟨[], ⟨List.replicate 40 3, false⟩, 0⟩ 10 =
      .error .corruptedMetaData :=
  readHeader_missing_or_short toyAG agEmpty
    ⟨[], ⟨List.replicate 40 3, false⟩, 0⟩ 10
    (by decide) (by decide) (by decide) (by decide)

/-! ## The keyed configuration (commands.cpp lines 234-347, claims C5, C8)

`generate_config` / `parse_config` wrap the master key under a
PBKDF2-derived KEK with AES-GCM, with the literal associated data
"version=1" regardless of the config version.  PBKDF2 and the config AEAD
are abstract parameters; `hexify`/`parse_hex` live in utils.cpp, which is
not among the sources, and are modelled from the spec ("All binary fields
are lowercase hex without separators"). -/

/-- Modelled from the spec: one lowercase hex digit (utils.cpp is not
among the sources). -/
def hexDigit (n : Nat) : Nat := if n < 10 then 48 + n else 87 + n

/-- Modelled from the spec: `securefs::hexify`, lowercase hex without
separators. -/
def hexify : List Nat → List Nat
  | [] => []
  | b :: rest => hexDigit (b / 16) :: hexDigit (b % 16) :: hexify rest

/-- Modelled from the spec: the value of one lowercase hex digit. -/
def hexVal (c : Nat) : Nat := if c < 58 then c - 48 else c - 87

/-- Modelled from the spec: `securefs::parse_hex` into a byte buffer. -/
def parseHex : List Nat → List Nat
  | c1 :: c2 :: rest => (hexVal c1 * 16 + hexVal c2) :: parseHex rest
  | _ => []

theorem hexVal_hexDigit (n : Nat) (h : n < 16) : hexVal (hexDigit n) = n := by
  unfold hexVal hexDigit
  by_cases h10 : n < 10
  · rw [if_pos h10, if_pos (by omega)]
    omega
  · rw [if_neg h10, if_neg (by omega)]
    omega

/-- Hex roundtrip for genuine bytes. -/
theorem parseHex_hexify (l : List Nat) (h : ∀ b ∈ l, b < 256) :
    parseHex (hexify l) = l := by
  induction l with
  | nil => rfl
  | cons b rest ih =>
    show parseHex (hexDigit (b / 16) :: hexDigit (b % 16) :: hexify rest) = b :: rest
    show (hexVal (hexDigit (b / 16)) * 16 + hexVal (hexDigit (b % 16))) :: parseHex (hexify rest) = b :: rest
    have hb : b < 256 := h b (List.mem_cons_self b rest)
    rw [hexVal_hexDigit _ (by omega), hexVal_hexDigit _ (Nat.mod_lt b (by omega)),
      ih (fun x hx => h x (List.mem_cons_of_mem b hx))]
    congr 1
    omega

/-- ASCII bytes of the literal associated-data string "version=1"
(commands.cpp line 33: it stays `version=1` for both config versions). -/
def versionHeader : List Nat := [118, 101, 114, 115, 105, 111, 110, 61, 49]

/-- The abstract crypto of the config layer: PBKDF2-HMAC-SHA256 (password,
salt, iterations → 32-byte KEK) and the config AEAD (key, IV, AAD). -/
structure CfgCrypto where
  pbkdf : List Nat → List Nat → Nat → List Nat
  gcmEnc : List Nat → List Nat → List Nat → List Nat → List Nat × List Nat
  gcmDec : List Nat → List Nat → List Nat → List Nat → List Nat →
    List Nat × Bool

/-- The JSON record of `.securefs.json`: binary fields are stored as hex
character strings; `block_size` and `iv_size` are present only for
version 2. -/
structure ConfigJson where
  version : Nat
  iterations : Nat
  salt : List Nat
  encIV : List Nat
  encMAC : List Nat
  encKey : List Nat
  blockSize : Option Nat
  ivSize : Option Nat
  deriving DecidableEq, Repr

/-- `generate_config` (commands.cpp lines 234-284): `rounds = 0` means the
default 400000; the KEK is PBKDF2 of the password; the master key is
AES-GCM-encrypted under the KEK with the freshly sampled `iv` and AAD
`version=1`; `block_size`/`iv_size` are emitted only for version 2. -/
def generate_config (G : CfgCrypto) (version : Nat) (masterKey salt : List Nat)
    (password : List Nat) (blockSize ivSize : Nat) (rounds : Nat)
    (iv : List Nat) : ConfigJson :=
  let rounds2 := if rounds = 0 then 400000 else rounds
  let kek := G.pbkdf password salt rounds2
  { version := version
    iterations := rounds2
    salt := hexify salt
    encIV := hexify iv
    encMAC := hexify (G.gcmEnc kek iv versionHeader masterKey).2
    encKey := hexify (G.gcmEnc kek iv versionHeader masterKey).1
    blockSize := if version = 2 then some blockSize else none
    ivSize := if version = 2 then some ivSize else none }

/-- `parse_config` (commands.cpp lines 286-347): versions other than 1 and
2 fail `InvalidArgument`; version 1 fixes `block_size = 4096` and
`iv_size = 32`, version 2 takes both from the JSON (a missing field throws,
modelled as `missingField`); then the KEK is derived identically and the
AEAD verdict is returned as the success flag together with the decrypted
master key and the two sizes.  No range check is applied to `iv_size`. -/
def parse_config (G : CfgCrypto) (config : ConfigJson) (password : List Nat) :
    Except Err (Bool × List Nat × Nat × Nat) :=
  if config.version = 1 then
    let kek := G.pbkdf password (parseHex config.salt) config.iterations
    .ok ((G.gcmDec kek (parseHex config.encIV) versionHeader
        (parseHex config.encKey) (parseHex config.encMAC)).2,
      (G.gcmDec kek (parseHex config.encIV) versionHeader
        (parseHex config.encKey) (parseHex config.encMAC)).1,
      4096, 32)
  else if config.version = 2 then
    match config.blockSize, config.ivSize with
    | some bs, some ivs =>
      let kek := G.pbkdf password (parseHex config.salt) config.iterations
      .ok ((G.gcmDec kek (parseHex config.encIV) versionHeader
          (parseHex config.encKey) (parseHex config.encMAC)).2,
        (G.gcmDec kek (parseHex config.encIV) versionHeader
          (parseHex config.encKey) (parseHex config.encMAC)).1,
        bs, ivs)
    | _, _ => .error .missingField
  else .error .invalidArgument

/-- The `--iv-size` validation of `create_filesys` (commands.cpp lines
432-433): values outside `[12, 64]` are rejected with a plain
`std::runtime_error` ("Invalid IV size"). -/
def createCheckIvSize (n : Int) : Except Err Unit :=
  if n < 12 ∨ n > 64 then .error .runtimeError else .ok ()

/-- C5: for every master key, salt, version in `{1, 2}`, block size, IV
size, iteration count and password of at most 4000 bytes, `parse_config`
of `generate_config`'s output with the same password succeeds and recovers
exactly the master key (and for version 2 the stored `block_size` and
`iv_size`; for version 1 it sets 4096 and 32), provided the abstract AEAD
round-trips; a password whose derived KEK fails the AEAD tag check yields
the wrong-password result (`false`) without an exception. -/
theorem config_roundtrip (G : CfgCrypto) (version : Nat)
    (masterKey salt password password2 iv junk : List Nat)
    (blockSize ivSize rounds : Nat)
    (hver : version = 1 ∨ version = 2)
    (hpass : password.length ≤ 4000)
    (hsalt : ∀ b ∈ salt, b < 256) (hiv : ∀ b ∈ iv, b < 256)
    (hct : ∀ b ∈ (G.gcmEnc (G.pbkdf password salt
        (if rounds = 0 then 400000 else rounds)) iv versionHeader masterKey).1,
      b < 256)
    (hmac : ∀ b ∈ (G.gcmEnc (G.pbkdf password salt
        (if rounds = 0 then 400000 else rounds)) iv versionHeader masterKey).2,
      b < 256)
    (hdec : G.gcmDec (G.pbkdf password salt
        (if rounds = 0 then 400000 else rounds)) iv versionHeader
        (G.gcmEnc (G.pbkdf password salt
          (if rounds = 0 then 400000 else rounds)) iv versionHeader masterKey).1
        (G.gcmEnc (G.pbkdf password salt
          (if rounds = 0 then 400000 else rounds)) iv versionHeader masterKey).2 =
      (masterKey, true))
    (hdec2 : G.gcmDec (G.pbkdf password2 salt
        (if rounds = 0 then 400000 else rounds)) iv versionHeader
        (G.gcmEnc (G.pbkdf password salt
          (if rounds = 0 then 400000 else rounds)) iv versionHeader masterKey).1
        (G.gcmEnc (G.pbkdf password salt
          (if rounds = 0 then 400000 else rounds)) iv versionHeader masterKey).2 =
      (junk, false)) :
    parse_config G
      (generate_config G version masterKey salt password blockSize ivSize rounds iv)
      password =
      .ok (true, masterKey, (if version = 1 then 4096 else blockSize),
        (if version = 1 then 32 else ivSize)) ∧
    parse_config G
      (generate_config G version masterKey salt password blockSize ivSize rounds iv)
      password2 =
      .ok (false, junk, (if version = 1 then 4096 else blockSize),
        (if version = 1 then 32 else ivSize)) := by
  have hs := parseHex_hexify salt hsalt
  have hi := parseHex_hexify iv hiv
  have hc := parseHex_hexify _ hct
  have hm := parseHex_hexify _ hmac
  rcases hver with h1 | h2
  · subst h1
    constructor
    · unfold parse_config generate_config
      rw [if_pos rfl]
      dsimp only
      rw [hs, hi, hc, hm, hdec]
      rfl
    · unfold parse_config generate_config
      rw [if_pos rfl]
      dsimp only
      rw [hs, hi, hc, hm, hdec2]
      rfl
  · subst h2
    constructor
    · unfold parse_config generate_config
      dsimp only
      rw [if_neg (by omega), if_pos rfl]
      rw [hs, hi, hc, hm, hdec]
      rfl
    · unfold parse_config generate_config
      dsimp only
      rw [if_neg (by omega), if_pos rfl]
      rw [hs, hi, hc, hm, hdec2]
      rfl

/-- A toy config crypto for the witnesses: the KEK is the password padded
to 32 bytes, "encryption" is the identity with the KEK itself as the tag,
and decryption succeeds exactly when the presented tag equals the key. -/
def toyCfg : CfgCrypto where
  pbkdf := fun password _salt _iter => padTo 32 password
  gcmEnc := fun key _iv _aad pt => (pt, key)
  gcmDec := fun key _iv _aad ct mac => (ct, mac == key)

/-- Witness for C5: scenario S6 with password "correct horse" (its bytes),
version 2, block size 4096, IV size 12, 1000 rounds; reparsing with
"wrong horse" reports the wrong-password result. -/
theorem config_roundtrip_witness :
    parse_config toyCfg
      (generate_config toyCfg 2 (List.replicate 32 9) (List.replicate 32 10)
        [99, 111, 114, 114, 101, 99, 116] 4096 12 1000 (List.replicate 32 11))
      [99, 111, 114, 114, 101, 99, 116] =
      .ok (true, List.replicate 32 9, 4096, 12) ∧
    parse_config toyCfg
      (generate_config toyCfg 2 (List.replicate 32 9) (List.replicate 32 10)
        [99, 111, 114, 114, 101, 99, 116] 4096 12 1000 (List.replicate 32 11))
      [119, 114, 111, 110, 103] =
      .ok (false, List.replicate 32 9, 4096, 12) := by
  have h := config_roundtrip toyCfg 2 (List.replicate 32 9) (List.replicate 32 10)
    [99, 111, 114, 114, 101, 99, 116] [119, 114, 111, 110, 103]
    (List.replicate 32 11) (List.replicate 32 9) 4096 12 1000
    (Or.inr rfl) (by decide) (by decide) (by decide) (by decide) (by decide)
    (by decide) (by decide)
  simpa using h

/-- C8 (amended): `parse_config` performs no range validation of
`iv_size` — a version-2 config parses successfully and returns whatever
`iv_size` it stores, in range or not; the only `[12, 64]` check in the
sources is applied by `create_filesys` to the command-line `--iv-size`
value, and it rejects with a generic runtime error, not `InvalidArgument`. -/
theorem parse_config_no_ivSize_check (G : CfgCrypto) (config : ConfigJson)
    (password : List Nat) (bs ivs : Nat) (m : Int)
    (hv : config.version = 2)
    (hbs : config.blockSize = some bs)
    (his : config.ivSize = some ivs) :
    parse_config G config password =
      .ok ((G.gcmDec (G.pbkdf password (parseHex config.salt) config.iterations)
          (parseHex config.encIV) versionHeader (parseHex config.encKey)
          (parseHex config.encMAC)).2,
        (G.gcmDec (G.pbkdf password (parseHex config.salt) config.iterations)
          (parseHex config.encIV) versionHeader (parseHex config.encKey)
          (parseHex config.encMAC)).1,
        bs, ivs) ∧
    (createCheckIvSize m = .ok () ↔ 12 ≤ m ∧ m ≤ 64) := by
  constructor
  · unfold parse_config
    rw [if_neg (by omega), if_pos hv, hbs, his]
  · unfold createCheckIvSize
    by_cases hm : m < 12 ∨ m > 64
    · rw [if_pos hm]
      constructor
      · intro h
        exact absurd h (by simp)
      · intro h
        omega
    · rw [if_neg hm]
      constructor
      · intro _
        omega
      · intro _
        rfl

/-- Counterexample for C8 as stated: a version-2 config with
`iv_size = 100` (outside `[12, 64]`) parses successfully — no
`InvalidArgument` is raised, and the out-of-range size is returned as a
usable configuration. -/
theorem parse_ivSize_out_of_range_counterexample :
    parse_config toyCfg
      (generate_config toyCfg 2 (List.replicate 32 9) (List.replicate 32 10)
        [7] 4096 100 1000 (List.replicate 32 11)) [7] =
      .ok (true, List.replicate 32 9, 4096, 100) := by
  rfl

/-- Witness for C8's amended statement, at a concrete out-of-range
config. -/
theorem parse_config_no_ivSize_check_witness :
    parse_config toyCfg
      { version := 2, iterations := 5, salt := hexify (List.replicate 32 10),
        encIV := hexify (List.replicate 32 11),
        encMAC := hexify (padTo 32 [7]),
        encKey := hexify (List.replicate 32 9),
        blockSize := some 4096, ivSize := some 100 } [7] =
      .ok ((toyCfg.gcmDec
          (toyCfg.pbkdf [7] (parseHex (hexify (List.replicate 32 10))) 5)
          (parseHex (hexify (List.replicate 32 11))) versionHeader
          (parseHex (hexify (List.replicate 32 9)))
          (parseHex (hexify (padTo 32 [7])))).2,
        (toyCfg.gcmDec
          (toyCfg.pbkdf [7] (parseHex (hexify (List.replicate 32 10))) 5)
          (parseHex (hexify (List.replicate 32 11))) versionHeader
          (parseHex (hexify (List.replicate 32 9)))
          (parseHex (hexify (padTo 32 [7])))).1,
        4096, 100) ∧
    (createCheckIvSize 100 = .ok () ↔ 12 ≤ (100 : Int) ∧ (100 : Int) ≤ 64) :=
  parse_config_no_ivSize_check toyCfg
    { version := 2, iterations := 5, salt := hexify (List.replicate 32 10),
      encIV := hexify (List.replicate 32 11),
      encMAC := hexify (padTo 32 [7]),
      encKey := hexify (List.replicate 32 9),
      blockSize := some 4096, ivSize := some 100 } [7] 4096 100 100
    rfl rfl rfl

end Securefs
